import Mathlib

/-!
Shallow embedding of the `empress-store` reactive state container.

The embedding follows the TypeScript source:
* `src/store/store.ts` — the `Store` class: `validateUpdate`, `update`
  (callback → validate → shallow merge → middleware fold → commit → notify),
  `transaction`, the proxy-based `state` accessor, `cloneState`, and the
  process-wide microtask notification scheduler (`notifyListeners`).
* the computed-property module — `computed` with the shared `computedStack`
  in-flight set and the `undefined`-sentinel cache.
* the store-mixer module — `mixStores` with per-store delta distribution,
  `update` interception on the source stores, and `cleanup`.

JavaScript objects used as states are modelled as association lists with
string keys (`StState`); object spread `{...state, ...update}` is
`applyUpdate`; partial updates are `UpdMap`.  Values are an arbitrary type
`V` with decidable equality, which models JavaScript strict equality on
primitive values.  Exceptions are modelled with `Except String`.
-/

abbrev Key := String

/-- A JavaScript object used as a store state: ordered fields, unique keys. -/
abbrev StState (V : Type) := List (Key × V)

/-- A partial update object (`Partial<T>` in the source). -/
abbrev UpdMap (V : Type) := List (Key × V)

/-- Property lookup on an object: first matching key. -/
def lookupK {V : Type} : StState V → Key → Option V
  | [], _ => none
  | (k', v) :: rest, k => if k' = k then some v else lookupK rest k

/-- The JavaScript `key in object` test. -/
def hasKeyK {V : Type} (l : StState V) (k : Key) : Bool :=
  (lookupK l k).isSome

/-- JavaScript property assignment on an object literal: replaces the value
of an existing key in place (keeping insertion order), appends new keys. -/
def setK {V : Type} : StState V → Key → V → StState V
  | [], k, v => [(k, v)]
  | (k', w) :: rest, k, v =>
    if k' = k then (k', v) :: rest else (k', w) :: setK rest k v

/-- The keys of an object, in insertion order. -/
def keysOf {V : Type} (l : StState V) : List Key :=
  l.map Prod.fst

/-- Well-formedness of an object: no duplicate keys. -/
def KeysNodup {V : Type} (l : StState V) : Prop :=
  (keysOf l).Nodup

/-- `applyUpdate` from `Store.update`: the object spread
`{...state, ...update}` (update keys override, new keys appended). -/
def applyUpdate {V : Type} (st : StState V) (u : UpdMap V) : StState V :=
  u.foldl (fun acc kv => setK acc kv.1 kv.2) st

/-- Result of a user-supplied validator: boolean `true`, a string message,
some other non-`true` value, or a thrown exception. -/
inductive VRes where
  | isTrue : VRes
  | retMsg : String → VRes
  | retOther : VRes
  | thrown : String → VRes

/-- A validator `(update) → true | string | other` (it may also throw). -/
abbrev ValidatorF (V : Type) := UpdMap V → VRes

/-- A middleware `(state, update, next) → state` (it may throw). -/
abbrev MiddlewareF (V : Type) :=
  StState V → UpdMap V → (StState V → UpdMap V → StState V) → Except String (StState V)

/-- The `Store` instance fields: `_data`, `_listeners` (listener ids, a set),
`_middleware`, `_validators`. -/
structure StoreM (V : Type) where
  data : StState V
  listeners : List Nat := []
  middleware : List (MiddlewareF V) := []
  validators : List (ValidatorF V) := []

/-- `Store.validateUpdate`: run every validator in registration order, fail
fast on the first non-`true` result with the returned string or the default
message; a validator exception propagates. -/
def validateUpdate {V : Type} (vs : List (ValidatorF V)) (u : UpdMap V) :
    Except String Unit :=
  match vs with
  | [] => .ok ()
  | v :: rest =>
    match v u with
    | .isTrue => validateUpdate rest u
    | .retMsg s => .error s
    | .retOther => .error "Validation failed"
    | .thrown e => .error e

/-- The middleware fold inside `Store.update`: each middleware receives the
running merged state, the original update and `applyUpdate`. -/
def runMiddleware {V : Type} (ms : List (MiddlewareF V)) (st : StState V)
    (u : UpdMap V) : Except String (StState V) :=
  match ms with
  | [] => .ok st
  | m :: rest => (m st u applyUpdate).bind fun st' => runMiddleware rest st' u

/-- `Store.update` minus the notification side effect: compute the update
from the callback, validate it, shallow-merge, fold middleware, commit.
Any error leaves the store as it was (the commit is the last step). -/
def storeUpdate {V : Type} (st : StoreM V) (cb : StState V → UpdMap V) :
    Except String (StoreM V) :=
  let u := cb st.data
  (validateUpdate st.validators u).bind fun _ =>
  (runMiddleware st.middleware (applyUpdate st.data u) u).map fun final =>
  { st with data := final }

/-- An `ITransaction`: `apply` may throw, `rollback` is a plain function
(the spec's data model takes both as pure state functions). -/
structure TxM (V : Type) where
  apply : StState V → Except String (StState V)
  rollback : StState V → StState V

/-- `Store.transaction`: try `apply` over the current state and commit; on
an error, commit `rollback` of the pre-transaction state instead and
re-raise the original error.  Both branches notify (second component). -/
def storeTransaction {V : Type} (st : StoreM V) (t : TxM V) :
    StoreM V × Option String :=
  match t.apply st.data with
  | .ok s' => ({ st with data := s' }, none)
  | .error e => ({ st with data := t.rollback st.data }, some e)

/-!
### The process-wide notification scheduler (`notifyListeners`)

`Store` keeps three static fields shared by every instance:
`_pendingNotifications` (an insertion-ordered set of stores),
`_isNotifying` and `_notificationScheduled`.  Stores are identified by
their index in the world's store list.
-/


/-- The shared static scheduler state of the `Store` class. -/
structure Sched where
  pending : List Nat := []
  scheduled : Bool := false
  isNotifying : Bool := false

/-- `Set.add`: append if absent (a JS `Set` keeps insertion order and
ignores re-insertion of a present element). -/
def addUnique (l : List Nat) (x : Nat) : List Nat :=
  if x ∈ l then l else l ++ [x]

/-- `Store.notifyListeners`: while a delivery pass is mid-flight only add
the store to the pending set; otherwise make sure one microtask pass is
scheduled and add the store to the pending set. -/
def notifyListeners (s : Sched) (sid : Nat) : Sched :=
  if s.isNotifying then
    { s with pending := addUnique s.pending sid }
  else
    { s with scheduled := true, pending := addUnique s.pending sid }

/-- All stores of the process plus the shared scheduler state. -/
structure World (V : Type) where
  stores : List (StoreM V)
  sched : Sched := {}

/-- A synchronous `update` call: target store index and update callback. -/
abbrev TurnOp (V : Type) := Nat × (StState V → UpdMap V)

/-- One synchronous `store.update(cb)` call at world level: run the update
pipeline and, on success, commit and enqueue the store for notification.
An exception leaves the world unchanged and propagates. -/
def runOp {V : Type} (w : World V) (op : TurnOp V) : World V × Option String :=
  match w.stores.get? op.1 with
  | none => (w, none)
  | some st =>
    match storeUpdate st op.2 with
    | .ok st' =>
      ({ w with stores := w.stores.set op.1 st',
                sched := notifyListeners w.sched op.1 }, none)
    | .error e => (w, some e)

/-- A synchronous turn of `update` calls: run in order, aborting at the
first exception (which propagates to the caller of that `update`). -/
def runOps {V : Type} : World V → List (TurnOp V) → World V × Option String
  | w, [] => (w, none)
  | w, op :: rest =>
    match runOp w op with
    | (w', none) => runOps w' rest
    | (w', some e) => (w', some e)

/-!
### The deferred delivery pass

The microtask body iterates the *live* pending set
(`_pendingNotifications.forEach`): elements added during the iteration are
visited in the same pass; re-adding a present element is a no-op.  Each
listener is invoked with the owning store's `_data` read at call time.
Listeners may themselves call `update` (their behaviour is the function
`beh`, mapping a listener id and the received state to the `update` calls
the listener performs).  The pass is decomposed as visited stores `done`,
the store being visited `cur` and the not-yet-visited tail `queue`.
-/


/-- One delivery log entry: (store id, listener id, state received). -/
abbrev LogEntry (V : Type) := Nat × Nat × StState V

abbrev DLog (V : Type) := List (LogEntry V)

/-- The behaviour of the listener with a given id: the `update` calls it
issues when invoked with a state. -/
abbrev Beh (V : Type) := Nat → StState V → List (TurnOp V)

/-- `notifyListeners` reached from inside the delivery pass: `_isNotifying`
is set, so the store is only added to the live set if absent (appended
after the not-yet-visited tail). -/
def inPassNotify (done : List Nat) (cur : Nat) (queue : List Nat) (sid : Nat) :
    List Nat :=
  if sid ∈ done ∨ sid = cur ∨ sid ∈ queue then queue else queue ++ [sid]

/-- The `update` calls a listener performs while the pass is delivering:
each successful update commits immediately and enqueues into the live set;
an exception aborts the listener (and the whole pass). -/
def runInPassOps {V : Type} (w : World V) (done : List Nat) (cur : Nat) :
    List Nat → List (TurnOp V) → (World V × List Nat × Option String)
  | queue, [] => (w, queue, none)
  | queue, op :: rest =>
    match w.stores.get? op.1 with
    | none => runInPassOps w done cur queue rest
    | some st =>
      match storeUpdate st op.2 with
      | .ok st' =>
        runInPassOps { w with stores := w.stores.set op.1 st' } done cur
          (inPassNotify done cur queue op.1) rest
      | .error e => (w, queue, some e)

/-- Visit the listeners of the store `cur`: each listener reads
`store._data` at call time, is logged, and then performs its updates. -/
def visitListeners {V : Type} (beh : Beh V) (w : World V) (done : List Nat)
    (cur : Nat) :
    List Nat → List Nat → DLog V → (World V × List Nat × DLog V × Option String)
  | queue, [], log => (w, queue, log, none)
  | queue, lid :: ls, log =>
    let st := ((w.stores.get? cur).map StoreM.data).getD []
    let log' := log ++ [(cur, lid, st)]
    match runInPassOps w done cur queue (beh lid st) with
    | (w', queue', none) => visitListeners beh w' done cur queue' ls log'
    | (w', queue', some e) => (w', queue', log', some e)

/-- The delivery loop over the live pending set, with fuel (the set can
only grow by stores not yet present, so enough fuel makes the fuel bound
unreachable). -/
def deliverLoop {V : Type} (beh : Beh V) :
    Nat → World V → List Nat → List Nat → DLog V →
    (World V × DLog V × Option String)
  | 0, w, _, _, log => (w, log, some "FUEL")
  | _ + 1, w, _, [], log => (w, log, none)
  | fuel + 1, w, done, cur :: queue, log =>
    let ls := ((w.stores.get? cur).map StoreM.listeners).getD []
    match visitListeners beh w done cur queue ls log with
    | (w', queue', log', none) => deliverLoop beh fuel w' (done ++ [cur]) queue' log'
    | (w', _, log', some e) => (w', log', some e)

/-- The scheduled microtask: set `_isNotifying`, iterate the live pending
set, then (in `finally`) clear all three shared fields.  Nothing runs when
no pass was scheduled. -/
def deliver {V : Type} (beh : Beh V) (w : World V) :
    World V × DLog V × Option String :=
  if w.sched.scheduled then
    let fuel := w.stores.length + w.sched.pending.length + 1
    let r := deliverLoop beh fuel w [] w.sched.pending []
    ({ r.1 with sched := {} }, r.2.1, r.2.2)
  else (w, [], none)

/-- A whole synchronous turn followed by its microtask delivery pass. -/
def runTurn {V : Type} (beh : Beh V) (w : World V) (ops : List (TurnOp V)) :
    World V × Option String × DLog V × Option String :=
  let (w', err) := runOps w ops
  let (w'', log, derr) := deliver beh w'
  (w'', err, log, derr)

/-- A listener that performs no updates (the passive observer of C1). -/
def passiveBeh (V : Type) : Beh V := fun _ _ => []

/-- A fresh world: given stores, clean scheduler. -/
def mkWorld {V : Type} (stores : List (StoreM V)) : World V :=
  { stores := stores }

/-!
### World-level transaction (commit + notify on both branches)
-/


/-- `store.transaction(t)` at world level: run the transaction on store `i`;
both the success branch and the rollback branch commit and enqueue a
notification; the rollback branch re-raises the original error. -/
def runTx {V : Type} (w : World V) (i : Nat) (t : TxM V) :
    World V × Option String :=
  match w.stores.get? i with
  | none => (w, none)
  | some st =>
    let r := storeTransaction st t
    ({ w with stores := w.stores.set i r.1, sched := notifyListeners w.sched i },
     r.2)

/-- A turn consisting of one `transaction` call followed by the microtask
delivery pass. -/
def runTxTurn {V : Type} (beh : Beh V) (w : World V) (i : Nat) (t : TxM V) :
    World V × Option String × DLog V × Option String :=
  let (w', err) := runTx w i t
  let (w'', log, derr) := deliver beh w'
  (w'', err, log, derr)

/-- The message carried by the `Error` raised for a non-`true` validator
result (the returned string, or the default message), or the propagated
exception of a throwing validator. -/
def vErrMsg : VRes → String
  | .isTrue => ""
  | .retMsg s => s
  | .retOther => "Validation failed"
  | .thrown e => e

/-- State of store `sid` in a world (empty for an absent index). -/
def dataAt {V : Type} (w : World V) (sid : Nat) : StState V :=
  ((w.stores.get? sid).map StoreM.data).getD []

/-- Listener ids of store `sid` in a world. -/
def listenersAt {V : Type} (w : World V) (sid : Nat) : List Nat :=
  ((w.stores.get? sid).map StoreM.listeners).getD []

/-- How many times listener `lid` of store `sid` was invoked in a delivery
log. -/
def countEntries {V : Type} (log : DLog V) (sid lid : Nat) : Nat :=
  (log.filter (fun e => e.1 = sid ∧ e.2.1 = lid)).length

/-- The example turn of the spec: two back-to-back updates on one store. -/
def c1Store : StoreM Int :=
  { data := [("score", 0), ("level", 1)], listeners := [7] }

/-- `update(s => ({score: s.score+10}))` then `update(s => ({level: s.level+1}))`. -/
def c1Ops : List (TurnOp Int) :=
  [(0, fun s => [("score", ((lookupK s "score").getD 0) + 10)]),
   (0, fun s => [("level", ((lookupK s "level").getD 0) + 1)])]

/-!
### Updates issued from inside a listener (C4)

`_pendingNotifications.forEach` iterates the live set: a store enqueued
while the pass is running is visited later in the *same* pass if it is not
already in the set, and is ignored if it is; after the `finally` block no
further pass is scheduled.
-/


/-- One store whose only listener, upon seeing `x = 1`, calls
`update(() => ({x: 2}))` on its own store. -/
def c4Store : StoreM Int :=
  { data := [("x", 0)], listeners := [0] }

def c4Beh : Beh Int := fun _ s =>
  if lookupK s "x" = some 1 then [(0, fun _ => [("x", 2)])] else []

def c4Ops : List (TurnOp Int) := [(0, fun _ => [("x", 1)])]

/-- Two stores; store 0's listener updates store 1 (untouched in the
turn), store 1's listener is passive. -/
def c4A : StoreM Int := { data := [("a", 0)], listeners := [0] }

def c4B : StoreM Int := { data := [("b", 0)], listeners := [5] }

def c4SameBeh : Beh Int := fun lid _ =>
  if lid = 0 then [(1, fun _ => [("b", 9)])] else []

def c4SameOps : List (TurnOp Int) := [(0, fun _ => [("a", 1)])]

/-!
### Computed properties (`computed`, shared `computedStack`)

A computed ref holds a cache slot (`undefined` doubles as "absent" in the
source: `if (cache === undefined)`), a disposed flag and subscriptions to
its source stores.  All computed refs of the process share one in-flight
set `computedStack`.  A getter is modelled by the list of other computed
refs it reads through `.value`, followed by its own result (a value —
possibly `undefined` — or a thrown exception); reading source-store state
needs no modelling here because stores never change during a read.
-/


/-- A JavaScript value that may be `undefined`. -/
inductive JSVal (V : Type) where
  | undef : JSVal V
  | val : V → JSVal V
deriving DecidableEq

/-- One computed ref: the computed refs its getter reads via `.value`, in
order, and the getter's own outcome afterwards. -/
structure CompRef (V : Type) where
  reads : List Nat
  result : Except String (JSVal V)

/-- The process state for computed refs: the refs, their cache slots,
disposed flags, getter invocation counters (instrumentation), and the
shared `computedStack` in-flight set. -/
structure CompSys (V : Type) where
  comps : List (CompRef V)
  cache : List (JSVal V)
  disposed : List Bool
  gcount : List Nat
  inflight : List Nat

def cacheAt {V : Type} (sys : CompSys V) (i : Nat) : JSVal V :=
  sys.cache.getD i .undef

def disposedAt {V : Type} (sys : CompSys V) (i : Nat) : Bool :=
  sys.disposed.getD i false

def compAt {V : Type} (sys : CompSys V) (i : Nat) : CompRef V :=
  sys.comps.getD i ⟨[], .ok .undef⟩

def gcountAt {V : Type} (sys : CompSys V) (i : Nat) : Nat :=
  sys.gcount.getD i 0

/-- Outcome of a `.value` read.  `fuelOut` is a modelling artifact only:
with enough fuel it never occurs (see the termination theorem). -/
inductive RRes (V : Type) where
  | fuelOut : RRes V
  | thrown : String → RRes V
  | ok : JSVal V → RRes V
deriving DecidableEq

/-- Outcome of running the reads of one getter in order. -/
inductive RARes where
  | fuelOut : RARes
  | thrown : String → RARes
  | allOk : RARes
deriving DecidableEq

/-- Run the `.value` reads a getter performs, in order, stopping at the
first exception; `f` is the fuelled read of one computed ref. -/
def readAllF {V : Type} (f : CompSys V → Nat → RRes V × CompSys V) :
    CompSys V → List Nat → RARes × CompSys V
  | sys, [] => (.allOk, sys)
  | sys, j :: rest =>
    match f sys j with
    | (.ok _, sys') => readAllF f sys' rest
    | (.thrown e, sys') => (.thrown e, sys')
    | (.fuelOut, sys') => (.fuelOut, sys')

/-- The `.value` getter of a computed ref: disposed check, shared-set
circular-dependency check, cache check; on a cache miss add the ref to
`computedStack`, run the getter (its reads, then its result), remove the
ref from `computedStack` on every exit path (`finally`), and cache the
result — `undefined` results are indistinguishable from an empty cache.
`fuelOut` is a modelling artifact: with enough fuel it never occurs. -/
def readValue {V : Type} : Nat → CompSys V → Nat → RRes V × CompSys V
  | 0, sys, _ => (.fuelOut, sys)
  | fuel + 1, sys, i =>
    if disposedAt sys i then
      (.thrown "Cannot access disposed computed value", sys)
    else if i ∈ sys.inflight then
      (.thrown "Circular dependency detected in computed properties", sys)
    else
      match cacheAt sys i with
      | .val v => (.ok (.val v), sys)
      | .undef =>
        let sys1 : CompSys V :=
          { sys with inflight := i :: sys.inflight,
                     gcount := sys.gcount.set i (gcountAt sys i + 1) }
        match readAllF (fun s j => readValue fuel s j) sys1 (compAt sys i).reads with
        | (.thrown e, sys2) =>
          (.thrown e, { sys2 with inflight := sys2.inflight.erase i })
        | (.fuelOut, sys2) =>
          (.fuelOut, { sys2 with inflight := sys2.inflight.erase i })
        | (.allOk, sys2) =>
          match (compAt sys i).result with
          | .error e => (.thrown e, { sys2 with inflight := sys2.inflight.erase i })
          | .ok rv =>
            (.ok rv, { sys2 with cache := sys2.cache.set i rv,
                                 inflight := sys2.inflight.erase i })

/-- The subscription callback `computed` installs on every source store:
when the store notifies, clear the cache (`cache = undefined`) unless
disposed; the getter is not invoked. -/
def notifyComputed {V : Type} (sys : CompSys V) (i : Nat) : CompSys V :=
  if disposedAt sys i then sys
  else { sys with cache := sys.cache.set i .undef }

/-- `dispose()`: idempotent; marks disposed and clears the cache. -/
def disposeComputed {V : Type} (sys : CompSys V) (i : Nat) : CompSys V :=
  if disposedAt sys i then sys
  else { sys with disposed := sys.disposed.set i true,
                  cache := sys.cache.set i .undef }

/-- A well-formed computed system: every getter only reads computed refs
that exist. -/
def ValidSys {V : Type} (sys : CompSys V) : Prop :=
  ∀ c ∈ sys.comps, ∀ j ∈ c.reads, j < sys.comps.length

/-- Two computed refs whose getters read each other through `.value`. -/
def c5CycleSys : CompSys Int :=
  { comps := [⟨[1], .ok (.val 7)⟩, ⟨[0], .ok (.val 8)⟩],
    cache := [.undef, .undef], disposed := [false, false],
    gcount := [0, 0], inflight := [] }

/-- A computed whose getter returns `undefined`: the `undefined`-sentinel
cache can never hold it. -/
def c3UndefSys : CompSys Int :=
  { comps := [⟨[], .ok .undef⟩], cache := [.undef], disposed := [false],
    gcount := [0], inflight := [] }

/-!
### The store mixer (`mixStores`)

`mixStores(stores, options)` builds a `MixedStore` whose initial state is
the spread-merge of all source states, installs an interception on every
source store's `update` method, and returns the mixed store (with a
`cleanup` method that restores the sources' original `update`).
`MixedStore.update` validates the whole update against the mixed
validators, pre-flight-validates each source's delta (the update keys that
exist in that source and differ by value), commits through the plain
`Store.update` pipeline (notifying the mixed store), and then raw-commits
each non-empty delta into its source through `Store.prototype.update`
(bypassing the interception), notifying that source.  Observable calls are
recorded as events. -/


inductive MixEvent where
  | validateSrc : Nat → MixEvent
  | notifyMixed : MixEvent
  | notifySrc : Nat → MixEvent
  | rawUpd : Nat → MixEvent
deriving DecidableEq

/-- The mixer world: the source stores, the mixed store, and whether the
interception installed by `mixStores` is still in place (`cleanup` removes
it). -/
structure MixState (V : Type) where
  sources : List (StoreM V)
  mixed : StoreM V
  intercepted : Bool

def srcAt {V : Type} (ms : MixState V) (i : Nat) : StoreM V :=
  ms.sources.getD i { data := [] }

/-- The per-store delta: the update keys that exist in the store's state
and differ from its current value (`key in store.state &&
store.state[key] !== update[key]`). -/
def deltaOf {V : Type} [DecidableEq V] (st : StState V) (u : UpdMap V) :
    UpdMap V :=
  u.filter (fun kv => hasKeyK st kv.1 && decide (lookupK st kv.1 ≠ some kv.2))

/-- Pre-flight validation of every non-empty per-store delta (first
`stores.forEach` in `MixedStore.update`), recording the validator calls. -/
def preflightFrom {V : Type} [DecidableEq V] :
    List (StoreM V) → Nat → UpdMap V → List MixEvent × Option String
  | [], _, _ => ([], none)
  | st :: rest, i, u =>
    let d := deltaOf st.data u
    if d = [] then preflightFrom rest (i + 1) u
    else
      match validateUpdate st.validators d with
      | .error e => ([.validateSrc i], some e)
      | .ok _ =>
        let r := preflightFrom rest (i + 1) u
        (.validateSrc i :: r.1, r.2)

/-- The write-back pass (second `stores.forEach`): each non-empty delta is
committed into its source store through the raw `Store.prototype.update`
path (temporarily swapping out the interception), which re-validates the
delta, merges, runs the store's middleware and notifies the store; empty
deltas leave the store untouched.  An exception aborts the pass, leaving
earlier stores committed. -/
def distributeFrom {V : Type} [DecidableEq V] :
    List (StoreM V) → Nat → UpdMap V →
      List (StoreM V) × List MixEvent × Option String
  | [], _, _ => ([], [], none)
  | st :: rest, i, u =>
    let d := deltaOf st.data u
    if d = [] then
      let r := distributeFrom rest (i + 1) u
      (st :: r.1, r.2.1, r.2.2)
    else
      match storeUpdate st (fun _ => d) with
      | .error e => (st :: rest, [], some e)
      | .ok st' =>
        let r := distributeFrom rest (i + 1) u
        (st' :: r.1, .rawUpd i :: .notifySrc i :: r.2.1, r.2.2)

/-- `MixedStore.update`: validate against the mixed validators, pre-flight
validate every non-empty source delta, commit through the plain
`Store.update` pipeline (`super.update`, which notifies the mixed store),
then distribute the deltas.  An error leaves already-committed parts
committed and propagates. -/
def mixedUpdate {V : Type} [DecidableEq V] (ms : MixState V)
    (cb : StState V → UpdMap V) : MixState V × List MixEvent × Option String :=
  let u := cb ms.mixed.data
  match validateUpdate ms.mixed.validators u with
  | .error e => (ms, [], some e)
  | .ok _ =>
    match preflightFrom ms.sources 0 u with
    | (evs1, some e) => (ms, evs1, some e)
    | (evs1, none) =>
      match storeUpdate ms.mixed (fun _ => u) with
      | .error e => (ms, evs1, some e)
      | .ok mixed' =>
        let r := distributeFrom ms.sources 0 u
        ({ ms with mixed := mixed', sources := r.1 },
         evs1 ++ .notifyMixed :: r.2.1, r.2.2)

/-- The `update` entry point of source store `i`.  While the interception
is installed it validates the update against the source's own validators
and redirects to `mixedStore.update`; after `cleanup` it is the original
`Store.prototype.update` acting on the source store alone. -/
def sourceUpdate {V : Type} [DecidableEq V] (ms : MixState V) (i : Nat)
    (cb : StState V → UpdMap V) : MixState V × List MixEvent × Option String :=
  if ms.intercepted then
    let st := srcAt ms i
    let u := cb st.data
    match validateUpdate st.validators u with
    | .error e => (ms, [.validateSrc i], some e)
    | .ok _ =>
      let r := mixedUpdate ms (fun _ => u)
      (r.1, .validateSrc i :: r.2.1, r.2.2)
  else
    match storeUpdate (srcAt ms i) cb with
    | .error e => (ms, [], some e)
    | .ok st' =>
      ({ ms with sources := ms.sources.set i st' }, [.notifySrc i], none)

/-- `mixStores(stores, options)`: initial mixed state is the spread-merge
of the source states in order; the interception is installed. -/
def mixStores {V : Type} (stores : List (StoreM V)) (mw : List (MiddlewareF V))
    (vs : List (ValidatorF V)) : MixState V :=
  { sources := stores,
    mixed := { data := stores.foldl (fun acc s => applyUpdate acc s.data) [],
               listeners := [], middleware := mw, validators := vs },
    intercepted := true }

/-- `cleanup()`: run every saved restore closure, putting the sources'
original `update` methods back.  Nothing else changes — in particular
`MixedStore.update` keeps its overridden behaviour. -/
def cleanupMix {V : Type} (ms : MixState V) : MixState V :=
  { ms with intercepted := false }

/-- `mixStores([a, b])` for two plain stores (no validators, middleware or
options). -/
def mixTwo {V : Type} (a b : StState V) (la lb : List Nat) : MixState V :=
  mixStores [{ data := a, listeners := la }, { data := b, listeners := lb }] [] []

/-!
### Nested JavaScript values: the `state` proxy (C6) and `cloneState` (C10)

For the claims about nested state a value model with object identity is
needed: every object node carries an identity (`Nat`), so that reference
sharing and structural independence are expressible.  Arrays behave like
objects for both claims and are omitted.  `fn` stands for a value
`structuredClone` cannot clone (a function). -/


mutual

inductive JVal where
  | prim : Int → JVal
  | fn : Nat → JVal
  | obj : Nat → JFields → JVal

inductive JFields where
  | fnil : JFields
  | fcons : String → JVal → JFields → JFields

end

def JFields.lookup : JFields → String → Option JVal
  | .fnil, _ => none
  | .fcons k v fs, k' => if k = k' then some v else JFields.lookup fs k'

/-- JavaScript property assignment on a plain object: replace in place, or
append a new property. -/
def JFields.set : JFields → String → JVal → JFields
  | .fnil, k, v => .fcons k v .fnil
  | .fcons k0 v0 fs, k, v =>
    if k0 = k then .fcons k0 v fs else .fcons k0 v0 (JFields.set fs k v)

/-- A plain (unproxied) nested property write `o.k1.k2...kn = v`: navigate
through object-valued properties and assign at the end. -/
def rawWrite : JVal → List String → JVal → Option JVal
  | ov, [k], v =>
    match ov with
    | .obj id fs => some (.obj id (fs.set k v))
    | _ => none
  | ov, k :: rest, v =>
    match ov with
    | .obj id fs =>
      match fs.lookup k with
      | some child =>
        match rawWrite child rest v with
        | some child' => some (.obj id (fs.set k child'))
        | none => none
      | none => none
    | _ => none
  | _, [], _ => none

/-- A property write through the `state` accessor's proxy, at a path of
length ≥ 1 below the wrapper.  The top-level `set` trap warns and returns
`false`: the write is rejected and the state unchanged.  The `get` trap
wraps an object-valued property in `new Proxy(value, {})` — an
*empty-handler* proxy, which forwards every operation to the underlying
live object — so a write at any deeper path goes through unchecked and
mutates the store's internal state in place.  Returns the (possibly
mutated) internal state and whether the write took effect. -/
def viewWrite (data : JVal) (path : List String) (v : JVal) : JVal × Bool :=
  match path with
  | [] => (data, false)
  | [_] => (data, false)
  | k :: rest =>
    match data with
    | .obj id fs =>
      match fs.lookup k with
      | some child =>
        match child with
        | .obj _ _ =>
          match rawWrite child rest v with
          | some child' => (.obj id (fs.set k child'), true)
          | none => (data, false)
        | _ => (data, false)
      | none => (data, false)
    | _ => (data, false)

mutual

/-- `structuredClone`, as used by `cloneState` in the store source: a deep
copy with fresh object identities; a value it cannot clone (a function)
makes the whole clone fail with a `DataCloneError`.  The `Nat` argument is
the fresh-identity supply. -/
def sCloneV : JVal → Nat → Except String (JVal × Nat)
  | .prim n, c => .ok (.prim n, c)
  | .fn _, _ => .error "DataCloneError"
  | .obj _ fs, c =>
    (sCloneF fs (c + 1)).map fun r => (.obj c r.1, r.2)

def sCloneF : JFields → Nat → Except String (JFields × Nat)
  | .fnil, c => .ok (.fnil, c)
  | .fcons k v fs, c =>
    (sCloneV v c).bind fun rv =>
      (sCloneF fs rv.2).map fun rf => (.fcons k rv.1 rf.1, rf.2)

end

/-- `cloneState()` of the store source (`return structuredClone(this._data)`). -/
def cloneState (st : JVal) (c : Nat) : Except String (JVal × Nat) :=
  sCloneV st c

mutual

/-- Does a value contain something `structuredClone` cannot clone? -/
def hasFnV : JVal → Bool
  | .prim _ => false
  | .fn _ => true
  | .obj _ fs => hasFnF fs

def hasFnF : JFields → Bool
  | .fnil => false
  | .fcons _ v fs => hasFnV v || hasFnF fs

end

mutual

/-- Erase object identities (compare values structurally). -/
def stripV : JVal → JVal
  | .prim n => .prim n
  | .fn _ => .fn 0
  | .obj _ fs => .obj 0 (stripF fs)

def stripF : JFields → JFields
  | .fnil => .fnil
  | .fcons k v fs => .fcons k (stripV v) (stripF fs)

end

mutual

/-- The object identities occurring in a value. -/
def idListV : JVal → List Nat
  | .prim _ => []
  | .fn _ => []
  | .obj id fs => id :: idListF fs

def idListF : JFields → List Nat
  | .fnil => []
  | .fcons _ v fs => idListV v ++ idListF fs

end

/-! ### Theorems -/

theorem lookupK_setK_self {V : Type} (l : StState V) (k : Key) (v : V) :
    lookupK (setK l k v) k = some v := by
  induction l with
  | nil => simp [setK, lookupK]
  | cons hd tl ih =>
    obtain ⟨k', w⟩ := hd
    by_cases h : k' = k <;> simp [setK, lookupK, h, ih]

theorem lookupK_setK_ne {V : Type} (l : StState V) (k k' : Key) (v : V)
    (h : k ≠ k') : lookupK (setK l k v) k' = lookupK l k' := by
  induction l with
  | nil => simp [setK, lookupK, h]
  | cons hd tl ih =>
    obtain ⟨k0, w⟩ := hd
    by_cases h0 : k0 = k
    · subst h0
      simp [setK, lookupK, h]
    · simp [setK, lookupK, h0, ih]

/-!
### Invariants of the synchronous turn
-/


theorem addUnique_nodup {l : List Nat} (h : l.Nodup) (x : Nat) :
    (addUnique l x).Nodup := by
  unfold addUnique
  split
  · exact h
  · next hx =>
    rw [List.nodup_append]
    exact ⟨h, List.nodup_singleton x, by simpa [List.disjoint_singleton] using hx⟩

theorem mem_addUnique {l : List Nat} {x y : Nat} :
    y ∈ addUnique l x ↔ y ∈ l ∨ y = x := by
  unfold addUnique
  split
  · next hx =>
    constructor
    · exact Or.inl
    · rintro (h | rfl) <;> [exact h; exact hx]
  · simp

theorem runOp_stores_length {V : Type} (w : World V) (op : TurnOp V) :
    (runOp w op).1.stores.length = w.stores.length := by
  unfold runOp
  rcases h : w.stores.get? op.1 with _ | st
  · simp
  · dsimp only
    rcases hu : storeUpdate st op.2 with e | st' <;> simp [hu]

theorem runOp_shape {V : Type} (w : World V) (op : TurnOp V) (i : Nat) :
    ((runOp w op).1.stores.get? i).map StoreM.listeners =
      (w.stores.get? i).map StoreM.listeners ∧
    ((runOp w op).1.stores.get? i).map StoreM.validators =
      (w.stores.get? i).map StoreM.validators ∧
    ((runOp w op).1.stores.get? i).map StoreM.middleware =
      (w.stores.get? i).map StoreM.middleware := by
  unfold runOp
  rcases h : w.stores.get? op.1 with _ | st
  · simp
  · dsimp only
    rcases hu : storeUpdate st op.2 with e | st'
    · simp [hu]
    · dsimp only
      by_cases hi : op.1 = i
      · subst hi
        have hlen : op.1 < w.stores.length := by
          exact (List.get?_eq_some.mp h).1
        have hst' : st'.listeners = st.listeners ∧ st'.validators = st.validators ∧
            st'.middleware = st.middleware := by
          simp only [storeUpdate] at hu
          rcases hv : validateUpdate st.validators (op.2 st.data) with e | u
          · rw [hv] at hu
            simp [Except.bind] at hu
          · rw [hv] at hu
            rcases hm : runMiddleware st.middleware
                (applyUpdate st.data (op.2 st.data)) (op.2 st.data) with e | fin
            · rw [hm] at hu
              simp [Except.bind, Except.map] at hu
            · rw [hm] at hu
              simp [Except.bind, Except.map] at hu
              rw [← hu]
              exact ⟨rfl, rfl, rfl⟩
        have hget : w.stores[op.1] = st := by
          simpa using (List.get?_eq_some.mp h).2
        simp [List.getElem?_set_self', h, hst'.1, hst'.2.1, hst'.2.2,
          Option.map_map, hlen, hget]
      · simp [List.getElem?_set_ne hi]

theorem runOp_sched {V : Type} (w : World V) (op : TurnOp V) :
    (runOp w op).1.sched.isNotifying = w.sched.isNotifying ∧
    ((runOp w op).1.sched.pending = w.sched.pending ∨
      ∃ sid, sid = op.1 ∧ op.1 < w.stores.length ∧
        (runOp w op).1.sched.pending = addUnique w.sched.pending op.1 ∧
        (runOp w op).1.sched.scheduled =
          (if w.sched.isNotifying then w.sched.scheduled else true)) := by
  unfold runOp
  rcases h : w.stores.get? op.1 with _ | st
  · simp
  · dsimp only
    rcases hu : storeUpdate st op.2 with e | st'
    · simp [hu]
    · dsimp only
      refine ⟨?_, Or.inr ⟨op.1, rfl, (List.get?_eq_some.mp h).1, ?_, ?_⟩⟩ <;>
        simp [notifyListeners] <;> split <;> simp_all

theorem runOp_isNotifying {V : Type} (w : World V) (op : TurnOp V) :
    (runOp w op).1.sched.isNotifying = w.sched.isNotifying :=
  (runOp_sched w op).1

theorem runOp_scheduled_mono {V : Type} (w : World V) (op : TurnOp V)
    (h : w.sched.scheduled = true) : (runOp w op).1.sched.scheduled = true := by
  rcases (runOp_sched w op).2 with hp | ⟨sid, _, _, _, hs⟩
  · have : (runOp w op).1.sched = w.sched ∨
        (runOp w op).1.sched.scheduled = w.sched.scheduled ∨ True := Or.inr (Or.inr trivial)
    -- the pending-unchanged branch of `runOp` returns the world itself
    unfold runOp at *
    rcases hg : w.stores.get? op.1 with _ | st
    · simpa [hg] using h
    · dsimp only
      rcases hu : storeUpdate st op.2 with e | st'
      · simpa using h
      · simp [notifyListeners]
        split <;> simp [h]
  · rw [hs]
    split <;> simp [h]

theorem runOps_stores_length {V : Type} (ops : List (TurnOp V)) :
    ∀ w : World V, (runOps w ops).1.stores.length = w.stores.length := by
  induction ops with
  | nil => intro w; rfl
  | cons op rest ih =>
    intro w
    unfold runOps
    rcases hr : runOp w op with ⟨w', err⟩
    have hlen := runOp_stores_length w op
    rw [hr] at hlen
    cases err with
    | none => simpa [ih w'] using hlen
    | some e => simpa using hlen

theorem runOps_shape {V : Type} (ops : List (TurnOp V)) :
    ∀ (w : World V) (i : Nat),
      ((runOps w ops).1.stores.get? i).map StoreM.listeners =
        (w.stores.get? i).map StoreM.listeners := by
  induction ops with
  | nil => intro w i; rfl
  | cons op rest ih =>
    intro w i
    unfold runOps
    rcases hr : runOp w op with ⟨w', err⟩
    have hsh := (runOp_shape w op i).1
    rw [hr] at hsh
    cases err with
    | none => rw [ih w' i] at *; simpa using hsh
    | some e => simpa using hsh

theorem runOps_isNotifying {V : Type} (ops : List (TurnOp V)) :
    ∀ w : World V, (runOps w ops).1.sched.isNotifying = w.sched.isNotifying := by
  induction ops with
  | nil => intro w; rfl
  | cons op rest ih =>
    intro w
    unfold runOps
    rcases hr : runOp w op with ⟨w', err⟩
    have hn := runOp_isNotifying w op
    rw [hr] at hn
    cases err with
    | none => simpa [ih w'] using hn
    | some e => simpa using hn

theorem runOps_pending {V : Type} (ops : List (TurnOp V)) :
    ∀ (w : World V), (runOps w ops).2 = none →
      (∀ op ∈ ops, op.1 < w.stores.length) →
      (∀ sid, sid ∈ (runOps w ops).1.sched.pending ↔
        sid ∈ w.sched.pending ∨ sid ∈ ops.map Prod.fst) ∧
      ((runOps w ops).1.sched.pending.Nodup ↔ w.sched.pending.Nodup) := by
  induction ops with
  | nil => intro w _ _; simp [runOps]
  | cons op rest ih =>
    intro w hok hvalid
    have hlt : op.1 < w.stores.length := hvalid op (List.mem_cons_self op rest)
    rcases hg : w.stores.get? op.1 with _ | st
    · exact absurd hg (by simp [List.get?_eq_getElem?, List.getElem?_eq_none_iff]; omega)
    · rcases hu : storeUpdate st op.2 with e | st'
      · exfalso
        have : runOps w (op :: rest) = (w, some e) := by
          unfold runOps runOp
          rw [hg]
          dsimp only
          rw [hu]
        rw [this] at hok
        simp at hok
      · have hstep : runOp w op =
            ({ w with stores := w.stores.set op.1 st',
                      sched := notifyListeners w.sched op.1 }, none) := by
          unfold runOp
          rw [hg]
          dsimp only
          rw [hu]
        have hrw : runOps w (op :: rest) =
            runOps { w with stores := w.stores.set op.1 st',
                            sched := notifyListeners w.sched op.1 } rest := by
          conv_lhs => unfold runOps
          rw [hstep]
        set w1 : World V := { w with stores := w.stores.set op.1 st',
                                     sched := notifyListeners w.sched op.1 } with hw1
        have hok1 : (runOps w1 rest).2 = none := by rw [hrw] at hok; exact hok
        have hvalid1 : ∀ o ∈ rest, o.1 < w1.stores.length := by
          intro o ho
          have := hvalid o (List.mem_cons_of_mem op ho)
          simpa [hw1] using this
        obtain ⟨hmem, hnd⟩ := ih w1 hok1 hvalid1
        constructor
        · intro sid
          rw [hrw, hmem sid]
          have hpend : w1.sched.pending = addUnique w.sched.pending op.1 := by
            simp [hw1, notifyListeners]
            split <;> rfl
          rw [hpend, mem_addUnique]
          simp
          tauto
        · rw [hrw, hnd]
          have hpend : w1.sched.pending = addUnique w.sched.pending op.1 := by
            simp [hw1, notifyListeners]
            split <;> rfl
          rw [hpend]
          constructor
          · intro h
            unfold addUnique at h
            split at h
            · exact h
            · exact (List.nodup_append.mp h).1
          · intro h
            exact addUnique_nodup h op.1

theorem runOps_scheduled_mono {V : Type} (ops : List (TurnOp V)) :
    ∀ (w : World V), w.sched.scheduled = true →
      (runOps w ops).1.sched.scheduled = true := by
  induction ops with
  | nil => intro w h; simpa [runOps] using h
  | cons op rest ih =>
    intro w h
    unfold runOps
    rcases hr : runOp w op with ⟨w2, err⟩
    have hm := runOp_scheduled_mono w op h
    rw [hr] at hm
    cases err with
    | none => exact ih w2 hm
    | some e => simpa using hm

theorem runOps_scheduled {V : Type} (op : TurnOp V) (ops : List (TurnOp V))
    (w : World V) (hok : (runOps w (op :: ops)).2 = none)
    (hlt : op.1 < w.stores.length)
    (hnotif : w.sched.isNotifying = false) :
    (runOps w (op :: ops)).1.sched.scheduled = true := by
  rcases hg : w.stores.get? op.1 with _ | st
  · exact absurd hg (by simp [List.get?_eq_getElem?, List.getElem?_eq_none_iff]; omega)
  · rcases hu : storeUpdate st op.2 with e | st'
    · exfalso
      have : runOps w (op :: ops) = (w, some e) := by
        unfold runOps runOp
        rw [hg]
        dsimp only
        rw [hu]
      rw [this] at hok
      simp at hok
    · have hstep : runOp w op =
          ({ w with stores := w.stores.set op.1 st',
                    sched := notifyListeners w.sched op.1 }, none) := by
        unfold runOp
        rw [hg]
        dsimp only
        rw [hu]
      have hrw : runOps w (op :: ops) =
          runOps { w with stores := w.stores.set op.1 st',
                          sched := notifyListeners w.sched op.1 } ops := by
        conv_lhs => unfold runOps
        rw [hstep]
      rw [hrw]
      exact runOps_scheduled_mono ops _ (by simp [notifyListeners, hnotif])

/-!
### The delivery pass with passive listeners
-/


theorem visitListeners_passive {V : Type} (w : World V) (done : List Nat)
    (cur : Nat) :
    ∀ (ls queue : List Nat) (log : DLog V),
      visitListeners (passiveBeh V) w done cur queue ls log =
        (w, queue, log ++ ls.map (fun lid => (cur, lid, dataAt w cur)), none) := by
  intro ls
  induction ls with
  | nil => intro queue log; simp [visitListeners]
  | cons lid ls ih =>
    intro queue log
    unfold visitListeners
    simp only [passiveBeh, runInPassOps]
    rw [ih]
    simp [dataAt]

theorem deliverLoop_passive {V : Type} (w : World V) :
    ∀ (queue : List Nat) (fuel : Nat) (done : List Nat) (log : DLog V),
      queue.length < fuel →
      deliverLoop (passiveBeh V) fuel w done queue log =
        (w, log ++ queue.flatMap (fun sid => (listenersAt w sid).map
          (fun lid => (sid, lid, dataAt w sid))), none) := by
  intro queue
  induction queue with
  | nil =>
    intro fuel done log hf
    match fuel, hf with
    | fuel + 1, _ => simp [deliverLoop]
  | cons cur rest ih =>
    intro fuel done log hf
    match fuel, hf with
    | fuel + 1, hf =>
      unfold deliverLoop
      dsimp only
      rw [visitListeners_passive]
      dsimp only
      rw [ih fuel (done ++ [cur]) _ (by simpa using Nat.lt_of_succ_lt_succ hf)]
      simp [listenersAt, dataAt]

theorem deliver_passive {V : Type} (w : World V) (hs : w.sched.scheduled = true) :
    deliver (passiveBeh V) w =
      ({ w with sched := {} },
       w.sched.pending.flatMap (fun sid => (listenersAt w sid).map
         (fun lid => (sid, lid, dataAt w sid))), none) := by
  unfold deliver
  rw [hs]
  dsimp only
  rw [deliverLoop_passive w w.sched.pending
    (w.stores.length + w.sched.pending.length + 1) [] [] (by omega)]
  simp

theorem countEntries_append {V : Type} (a b : DLog V) (sid lid : Nat) :
    countEntries (a ++ b) sid lid = countEntries a sid lid + countEntries b sid lid := by
  simp [countEntries, List.filter_append]

theorem countEntries_block {V : Type} (s : Nat) (ls : List Nat) (st : StState V)
    (sid lid : Nat) :
    countEntries (ls.map (fun l => (s, l, st))) sid lid =
      if s = sid then (ls.filter (fun l => l = lid)).length else 0 := by
  induction ls with
  | nil => simp [countEntries]
  | cons l ls ih =>
    simp only [List.map_cons, countEntries, List.filter_cons] at *
    by_cases hs : s = sid <;> by_cases hl : l = lid <;> simp_all [countEntries]

theorem filter_eq_length_of_nodup (ls : List Nat) (h : ls.Nodup) (lid : Nat) :
    (ls.filter (fun l => l = lid)).length = if lid ∈ ls then 1 else 0 := by
  induction ls with
  | nil => simp
  | cons l ls ih =>
    have hnd : ls.Nodup := h.of_cons
    have hne : l ∉ ls := (List.nodup_cons.mp h).1
    by_cases hl : l = lid
    · subst hl
      have hfil : ls.filter (fun x => decide (x = l)) = [] :=
        List.filter_eq_nil_iff.mpr (fun x hx => by
          simp only [decide_eq_true_eq]
          rintro rfl
          exact hne hx)
      simp [List.filter_cons, hfil]
    · have hne' : ¬ lid = l := fun hh => hl hh.symm
      simp [List.filter_cons, hl, ih hnd, List.mem_cons, hne']

theorem countEntries_flatMap_not_mem {V : Type} (w : World V)
    (pending : List Nat) (sid lid : Nat) (h : sid ∉ pending) :
    countEntries (pending.flatMap (fun s => (listenersAt w s).map
      (fun l => (s, l, dataAt w s)))) sid lid = 0 := by
  induction pending with
  | nil => simp [countEntries]
  | cons s rest ih =>
    have hs : s ≠ sid := fun hh => h (by simp [hh])
    have hr : sid ∉ rest := fun hh => h (by simp [hh])
    simp only [List.flatMap_cons, countEntries_append, countEntries_block, hs,
      if_false, ih hr]

theorem countEntries_flatMap {V : Type} (w : World V) (pending : List Nat)
    (sid lid : Nat) (hp : pending.Nodup) (hls : (listenersAt w sid).Nodup) :
    countEntries (pending.flatMap (fun s => (listenersAt w s).map
      (fun l => (s, l, dataAt w s)))) sid lid =
      if sid ∈ pending ∧ lid ∈ listenersAt w sid then 1 else 0 := by
  induction pending with
  | nil => simp [countEntries]
  | cons s rest ih =>
    have hnd : rest.Nodup := hp.of_cons
    have hne : s ∉ rest := (List.nodup_cons.mp hp).1
    simp only [List.flatMap_cons, countEntries_append, countEntries_block]
    by_cases hs : s = sid
    · subst hs
      rw [countEntries_flatMap_not_mem w rest s lid hne]
      rw [filter_eq_length_of_nodup _ hls lid]
      by_cases hm : lid ∈ listenersAt w s <;> simp [hm]
    · have : (sid ∈ s :: rest ∧ lid ∈ listenersAt w sid) ↔
          (sid ∈ rest ∧ lid ∈ listenersAt w sid) := by
        constructor
        · rintro ⟨hm, hl⟩
          rcases List.mem_cons.mp hm with rfl | hm'
          · exact absurd rfl hs
          · exact ⟨hm', hl⟩
        · rintro ⟨hm, hl⟩
          exact ⟨List.mem_cons_of_mem s hm, hl⟩
      rw [ih hnd, if_congr this rfl rfl]
      simp [hs]

theorem listenersAt_runOps {V : Type} (stores : List (StoreM V))
    (ops : List (TurnOp V)) (sid : Nat) :
    listenersAt (runOps (mkWorld stores) ops).1 sid =
      listenersAt (mkWorld stores) sid := by
  unfold listenersAt
  rw [runOps_shape ops (mkWorld stores) sid]

/-- C1: for every sequence of `update` calls performed on any number of
`Store` instances within one synchronous turn — including updates whose
partial update changes no field value, since `update` always commits and
enqueues — the single deferred microtask pass completes, every subscribed
listener of each affected store is invoked exactly once, each delivered
entry carries the state committed by the last update to that store in the
turn (never an intermediate state), and listeners of untouched stores are
not invoked at all. -/
theorem update_batching_single_pass {V : Type} (stores : List (StoreM V))
    (ops : List (TurnOp V))
    (hvalid : ∀ op ∈ ops, op.1 < stores.length)
    (hln : ∀ st ∈ stores, st.listeners.Nodup)
    (hok : (runOps (mkWorld stores) ops).2 = none) :
    (deliver (passiveBeh V) (runOps (mkWorld stores) ops).1).2.2 = none ∧
    (∀ sid, sid ∈ ops.map Prod.fst →
      ∀ lid ∈ listenersAt (runOps (mkWorld stores) ops).1 sid,
        countEntries (deliver (passiveBeh V) (runOps (mkWorld stores) ops).1).2.1
          sid lid = 1) ∧
    (∀ e ∈ (deliver (passiveBeh V) (runOps (mkWorld stores) ops).1).2.1,
      e.1 ∈ ops.map Prod.fst ∧
        e.2.2 = dataAt (runOps (mkWorld stores) ops).1 e.1) ∧
    (∀ sid, sid ∉ ops.map Prod.fst → ∀ lid,
      countEntries (deliver (passiveBeh V) (runOps (mkWorld stores) ops).1).2.1
        sid lid = 0) := by
  cases ops with
  | nil =>
    simp only [runOps]
    have : deliver (passiveBeh V) (mkWorld stores) = (mkWorld stores, [], none) := by
      unfold deliver mkWorld
      simp
    rw [this]
    refine ⟨rfl, ?_, ?_, ?_⟩ <;> simp [countEntries]
  | cons op rest =>
    have hsched : (runOps (mkWorld stores) (op :: rest)).1.sched.scheduled = true :=
      runOps_scheduled op rest (mkWorld stores) hok
        (hvalid op (List.mem_cons_self op rest)) rfl
    obtain ⟨hmem, _⟩ := runOps_pending (op :: rest) (mkWorld stores) hok
      (by simpa using hvalid)
    have hnodup : (runOps (mkWorld stores) (op :: rest)).1.sched.pending.Nodup := by
      have := (runOps_pending (op :: rest) (mkWorld stores) hok
        (by simpa using hvalid)).2
      rw [this]
      exact List.nodup_nil
    have hmem' : ∀ sid, sid ∈ (runOps (mkWorld stores) (op :: rest)).1.sched.pending ↔
        sid ∈ (op :: rest).map Prod.fst := by
      intro sid
      rw [hmem sid]
      simp [mkWorld]
    rw [deliver_passive _ hsched]
    refine ⟨rfl, ?_, ?_, ?_⟩
    · intro sid hsid lid hlid
      have hlt : sid < stores.length := by
        simp only [List.mem_map] at hsid
        obtain ⟨o, ho, rfl⟩ := hsid
        exact hvalid o ho
      have hlsn : (listenersAt (runOps (mkWorld stores) (op :: rest)).1 sid).Nodup := by
        rw [listenersAt_runOps]
        unfold listenersAt mkWorld
        simp only [List.get?_eq_getElem?, List.getElem?_eq_getElem hlt]
        exact hln _ (List.getElem_mem hlt)
      rw [countEntries_flatMap _ _ _ _ hnodup hlsn,
        if_pos ⟨(hmem' sid).mpr hsid, hlid⟩]
    · intro e he
      rw [List.mem_flatMap] at he
      obtain ⟨s, hs, he⟩ := he
      rw [List.mem_map] at he
      obtain ⟨l, _, rfl⟩ := he
      exact ⟨(hmem' s).mp hs, rfl⟩
    · intro sid hsid lid
      exact countEntries_flatMap_not_mem _ _ _ _ (fun hc => hsid ((hmem' sid).mp hc))

theorem update_batching_single_pass_witness :
    countEntries
      (deliver (passiveBeh Int) (runOps (mkWorld [c1Store]) c1Ops).1).2.1 0 7 = 1 ∧
    dataAt (runOps (mkWorld [c1Store]) c1Ops).1 0 = [("score", 10), ("level", 2)] :=
  ⟨(update_batching_single_pass [c1Store] c1Ops
      (by intro op hop; rcases List.mem_cons.mp hop with rfl | hop; · decide
          rcases List.mem_cons.mp hop with rfl | hop; · decide
          simp at hop)
      (by intro st hst; rcases List.mem_cons.mp hst with rfl | hst
          · simp [c1Store]
          · simp at hst)
      (by decide)).2.1 0 (by simp [c1Ops]) 7 (by decide),
   by decide⟩

/-- C7: for every transaction `{apply, rollback}`: if `apply` raises, the
final state is `rollback` applied to the pre-transaction snapshot, the
original error is re-raised unchanged, and the deferred pass notifies every
listener with the rolled-back state; if `apply` succeeds, `rollback` is
never invoked (the result does not depend on it), `apply`'s result is
committed, and listeners are notified with it. -/
theorem transaction_rollback_semantics {V : Type} :
    (∀ (st : StoreM V) (t : TxM V) (e : String),
      t.apply st.data = .error e →
      storeTransaction st t = ({ st with data := t.rollback st.data }, some e)) ∧
    (∀ (st : StoreM V) (t : TxM V) (s' : StState V),
      t.apply st.data = .ok s' →
      storeTransaction st t = ({ st with data := s' }, none) ∧
      ∀ rb : StState V → StState V,
        storeTransaction st { apply := t.apply, rollback := rb } =
          ({ st with data := s' }, none)) ∧
    (∀ (stores : List (StoreM V)) (i : Nat) (t : TxM V) (e : String)
      (hlt : i < stores.length),
      t.apply stores[i].data = .error e →
      (runTxTurn (passiveBeh V) (mkWorld stores) i t).2.1 = some e ∧
      dataAt (runTxTurn (passiveBeh V) (mkWorld stores) i t).1 i =
        t.rollback stores[i].data ∧
      (runTxTurn (passiveBeh V) (mkWorld stores) i t).2.2.1 =
        stores[i].listeners.map (fun lid => (i, lid, t.rollback stores[i].data)) ∧
      (runTxTurn (passiveBeh V) (mkWorld stores) i t).2.2.2 = none) ∧
    (∀ (stores : List (StoreM V)) (i : Nat) (t : TxM V) (s' : StState V)
      (hlt : i < stores.length),
      t.apply stores[i].data = .ok s' →
      (runTxTurn (passiveBeh V) (mkWorld stores) i t).2.1 = none ∧
      dataAt (runTxTurn (passiveBeh V) (mkWorld stores) i t).1 i = s' ∧
      (runTxTurn (passiveBeh V) (mkWorld stores) i t).2.2.1 =
        stores[i].listeners.map (fun lid => (i, lid, s'))) := by
  have hcore : ∀ (stores : List (StoreM V)) (i : Nat) (t : TxM V)
      (hlt : i < stores.length),
      runTx (mkWorld stores) i t =
        ({ stores := stores.set i (storeTransaction stores[i] t).1,
           sched := { pending := [i], scheduled := true, isNotifying := false } },
         (storeTransaction stores[i] t).2) := by
    intro stores i t hlt
    unfold runTx
    have hget : (mkWorld stores).stores.get? i = some stores[i] := by
      simp [mkWorld, List.get?_eq_getElem?, List.getElem?_eq_getElem hlt]
    rw [hget]
    simp [mkWorld, notifyListeners, addUnique]
  refine ⟨?_, ?_, ?_, ?_⟩
  · intro st t e h
    unfold storeTransaction
    rw [h]
  · intro st t s' h
    constructor
    · unfold storeTransaction
      rw [h]
    · intro rb
      unfold storeTransaction
      dsimp only
      rw [h]
  · intro stores i t e hlt happly
    have htx : storeTransaction stores[i] t =
        ({ stores[i] with data := t.rollback stores[i].data }, some e) := by
      unfold storeTransaction
      rw [happly]
    unfold runTxTurn
    rw [hcore stores i t hlt, htx]
    dsimp only
    rw [deliver_passive _ rfl]
    dsimp only
    refine ⟨rfl, ?_, ?_, rfl⟩
    · simp [dataAt, List.get?_eq_getElem?, List.getElem?_set_eq_of_lt, hlt]
    · simp [listenersAt, dataAt, List.get?_eq_getElem?,
        List.getElem?_set_eq_of_lt, hlt]
  · intro stores i t s' hlt happly
    have htx : storeTransaction stores[i] t = ({ stores[i] with data := s' }, none) := by
      unfold storeTransaction
      rw [happly]
    unfold runTxTurn
    rw [hcore stores i t hlt, htx]
    dsimp only
    rw [deliver_passive _ rfl]
    dsimp only
    refine ⟨rfl, ?_, ?_⟩
    · simp [dataAt, List.get?_eq_getElem?, List.getElem?_set_eq_of_lt, hlt]
    · simp [listenersAt, dataAt, List.get?_eq_getElem?,
        List.getElem?_set_eq_of_lt, hlt]

theorem transaction_rollback_semantics_witness :
    storeTransaction (V := Int) { data := [("score", 5)], listeners := [1] }
      { apply := fun _ => .error "boom",
        rollback := fun s => setK s "score" 0 } =
      ({ data := [("score", 0)], listeners := [1] }, some "boom") := by
  have h := (transaction_rollback_semantics (V := Int)).1
    { data := [("score", 5)], listeners := [1] }
    { apply := fun _ => .error "boom", rollback := fun s => setK s "score" 0 }
    "boom" rfl
  rw [h]
  rfl

/-- C8: a validator returning a non-`true` result, a throwing validator or
a throwing middleware makes `validateUpdate`/`update` raise synchronously —
for a non-`true` result an `Error` whose message is the returned string or
the default `"Validation failed"`, failing fast at the first offending
validator in registration order — and a failing `update` leaves the
committed state exactly as it was immediately before the call (the turn
runner keeps the pre-call world and aborts).  `validateUpdate` itself is a
pure check and never changes the store. -/
theorem validation_failure_fail_fast_no_commit {V : Type} :
    (∀ (pre post : List (ValidatorF V)) (v : ValidatorF V) (u : UpdMap V)
      (r : VRes), (∀ v' ∈ pre, v' u = .isTrue) → v u = r → r ≠ .isTrue →
      validateUpdate (pre ++ v :: post) u = .error (vErrMsg r)) ∧
    (∀ (st : StoreM V) (cb : StState V → UpdMap V) (e : String),
      validateUpdate st.validators (cb st.data) = .error e →
      storeUpdate st cb = .error e) ∧
    (∀ (st : StoreM V) (cb : StState V → UpdMap V) (e : String),
      validateUpdate st.validators (cb st.data) = .ok () →
      runMiddleware st.middleware (applyUpdate st.data (cb st.data)) (cb st.data) =
        .error e →
      storeUpdate st cb = .error e) ∧
    (∀ (w : World V) (op : TurnOp V) (p : World V × Option String),
      runOp w op = p → p.2.isSome → p.1 = w) ∧
    (∀ (w : World V) (op : TurnOp V) (rest : List (TurnOp V)) (e : String),
      runOp w op = (w, some e) → runOps w (op :: rest) = (w, some e)) := by
  refine ⟨?_, ?_, ?_, ?_, ?_⟩
  · intro pre
    induction pre with
    | nil =>
      intro post v u r hpre hv hr
      unfold validateUpdate
      rw [List.nil_append]
      dsimp only
      rw [hv]
      cases r with
      | isTrue => exact absurd rfl hr
      | retMsg s => rfl
      | retOther => rfl
      | thrown e => rfl
    | cons v0 pre' ih =>
      intro post v u r hpre hv hr
      have hv0 : v0 u = .isTrue := hpre v0 (List.mem_cons_self v0 pre')
      have : validateUpdate ((v0 :: pre') ++ v :: post) u =
          validateUpdate (pre' ++ v :: post) u := by
        conv_lhs => unfold validateUpdate
        rw [List.cons_append]
        dsimp only
        rw [hv0]
      rw [this]
      exact ih post v u r (fun v' hm => hpre v' (List.mem_cons_of_mem v0 hm)) hv hr
  · intro st cb e h
    simp only [storeUpdate]
    rw [h]
    rfl
  · intro st cb e hv hm
    simp only [storeUpdate]
    rw [hv, hm]
    rfl
  · intro w op p hp hs
    unfold runOp at hp
    rcases hg : w.stores.get? op.1 with _ | st
    · rw [hg] at hp
      rw [← hp]
    · rw [hg] at hp
      dsimp only at hp
      rcases hu : storeUpdate st op.2 with e | st'
      · rw [hu] at hp
        rw [← hp]
      · rw [hu] at hp
        rw [← hp] at hs
        simp at hs
  · intro w op rest e h
    conv_lhs => unfold runOps
    rw [h]

theorem validation_failure_fail_fast_no_commit_witness :
    validateUpdate (V := Int)
      [fun _ => .isTrue, fun _ => .retOther, fun _ => .retMsg "later"]
      [("x", 1)] = .error "Validation failed" := by
  have h := (validation_failure_fail_fast_no_commit (V := Int)).1
    [fun _ => .isTrue] [fun _ => .retMsg "later"] (fun _ => .retOther)
    [("x", 1)] .retOther
    (by intro v' hv'
        rcases List.mem_cons.mp hv' with rfl | hv'
        · rfl
        · simp at hv')
    rfl (by intro hc; cases hc)
  exact h

/-- C4 counterexample: a listener of store 0 updates store 0 while store 0
is being delivered.  The store is already in the live pending set, so the
add is a no-op: its listener is invoked exactly once in the whole run, the
state committed from inside the listener (`x = 2`) is never delivered, and
after the pass the scheduler is idle (no subsequent pass exists).  This
refutes the claim that the store is notified in a later pass. -/
theorem listener_update_no_later_pass_counterexample :
    (runTurn c4Beh (mkWorld [c4Store]) c4Ops).2.2.1 = [(0, 0, [("x", 1)])] ∧
    dataAt (runTurn c4Beh (mkWorld [c4Store]) c4Ops).1 0 = [("x", 2)] ∧
    (runTurn c4Beh (mkWorld [c4Store]) c4Ops).1.sched.pending = [] ∧
    (runTurn c4Beh (mkWorld [c4Store]) c4Ops).1.sched.scheduled = false ∧
    (runTurn c4Beh (mkWorld [c4Store]) c4Ops).2.2.2 = none := by
  decide

/-- C4 (amended): `update` from inside a listener during an active delivery
pass never synchronously re-enters delivery: `notifyListeners` under
`_isNotifying` only adds the store to the shared pending set (and schedules
nothing); a store already visited, being visited or already queued is not
re-enqueued, while a store not in the live set is appended and therefore
delivered later in the *same* pass with its newly committed state; after
the pass the scheduler is idle. -/
theorem listener_update_enqueue_same_pass :
    (∀ (s : Sched) (sid : Nat), s.isNotifying = true →
      notifyListeners s sid = { s with pending := addUnique s.pending sid }) ∧
    (∀ (done queue : List Nat) (cur sid : Nat),
      ((sid ∈ done ∨ sid = cur ∨ sid ∈ queue) →
        inPassNotify done cur queue sid = queue) ∧
      (¬(sid ∈ done ∨ sid = cur ∨ sid ∈ queue) →
        inPassNotify done cur queue sid = queue ++ [sid])) ∧
    ((runTurn c4SameBeh (mkWorld [c4A, c4B]) c4SameOps).2.2.1 =
       [(0, 0, [("a", 1)]), (1, 5, [("b", 9)])] ∧
     (runTurn c4SameBeh (mkWorld [c4A, c4B]) c4SameOps).1.sched.pending = [] ∧
     (runTurn c4SameBeh (mkWorld [c4A, c4B]) c4SameOps).1.sched.scheduled = false) := by
  refine ⟨?_, ?_, ?_⟩
  · intro s sid h
    unfold notifyListeners
    rw [h]
    simp
  · intro done queue cur sid
    constructor
    · intro h
      unfold inPassNotify
      simp only [if_pos h]
    · intro h
      unfold inPassNotify
      simp only [if_neg h]
  · refine ⟨by decide, by decide, by decide⟩

theorem listener_update_enqueue_same_pass_witness :
    notifyListeners { pending := [0], scheduled := true, isNotifying := true } 1 =
      { pending := [0, 1], scheduled := true, isNotifying := true } := by
  have h := listener_update_enqueue_same_pass.1
    { pending := [0], scheduled := true, isNotifying := true } 1 rfl
  rw [h]
  rfl

theorem readAllF_preserves {V : Type}
    (f : CompSys V → Nat → RRes V × CompSys V)
    (hf : ∀ (sys : CompSys V) (j : Nat),
      (f sys j).2.comps = sys.comps ∧ (f sys j).2.disposed = sys.disposed ∧
      (f sys j).2.inflight = sys.inflight) :
    ∀ (l : List Nat) (sys : CompSys V),
      (readAllF f sys l).2.comps = sys.comps ∧
      (readAllF f sys l).2.disposed = sys.disposed ∧
      (readAllF f sys l).2.inflight = sys.inflight := by
  intro l
  induction l with
  | nil => intro sys; exact ⟨rfl, rfl, rfl⟩
  | cons j rest ih =>
    intro sys
    have hj := hf sys j
    unfold readAllF
    rcases hfj : f sys j with ⟨r, sys'⟩
    rw [hfj] at hj
    cases r with
    | ok v =>
      dsimp only
      obtain ⟨h1, h2, h3⟩ := ih sys'
      exact ⟨h1.trans hj.1, h2.trans hj.2.1, h3.trans hj.2.2⟩
    | thrown e => exact hj
    | fuelOut => exact hj

theorem readValue_preserves {V : Type} :
    ∀ (fuel : Nat) (sys : CompSys V) (i : Nat),
      (readValue fuel sys i).2.comps = sys.comps ∧
      (readValue fuel sys i).2.disposed = sys.disposed ∧
      (readValue fuel sys i).2.inflight = sys.inflight := by
  intro fuel
  induction fuel with
  | zero => intro sys i; exact ⟨rfl, rfl, rfl⟩
  | succ fuel ih =>
    intro sys i
    unfold readValue
    by_cases hd : disposedAt sys i
    · simp [hd]
    · simp only [hd, Bool.false_eq_true, if_false]
      by_cases hin : i ∈ sys.inflight
      · simp [hin]
      · simp only [hin, if_false]
        rcases hc : cacheAt sys i with _ | v
        · dsimp only
          have hall := readAllF_preserves (fun s j => readValue fuel s j)
            (fun s j => ih s j) (compAt sys i).reads
            { sys with inflight := i :: sys.inflight,
                       gcount := sys.gcount.set i (gcountAt sys i + 1) }
          rcases hra : readAllF (fun s j => readValue fuel s j)
              { sys with inflight := i :: sys.inflight,
                         gcount := sys.gcount.set i (gcountAt sys i + 1) }
              (compAt sys i).reads with ⟨r, sys2⟩
          rw [hra] at hall
          obtain ⟨h1, h2, h3⟩ := hall
          have herase : sys2.inflight.erase i = sys.inflight := by
            rw [h3]
            exact List.erase_cons_head i sys.inflight
          cases r with
          | thrown e => exact ⟨h1, h2, herase⟩
          | fuelOut => exact ⟨h1, h2, herase⟩
          | allOk =>
            rcases (compAt sys i).result with e | rv
            · exact ⟨h1, h2, herase⟩
            · exact ⟨h1, h2, herase⟩
        · simp

theorem getD_set_ne {α : Type} (l : List α) (i j : Nat) (x d : α) (h : i ≠ j) :
    (l.set i x).getD j d = l.getD j d := by
  simp [List.getD_eq_getElem?_getD, List.getElem?_set_ne h]

theorem getD_set_self_of_lt {α : Type} (l : List α) (i : Nat) (x d : α)
    (h : i < l.length) : (l.set i x).getD i d = x := by
  simp [List.getD_eq_getElem?_getD, List.getElem?_set_eq_of_lt _ h]

theorem readAllF_gcount_frozen {V : Type} (fuel : Nat) (i : Nat)
    (ihv : ∀ (sys : CompSys V) (j : Nat), i ∈ sys.inflight →
      gcountAt (readValue fuel sys j).2 i = gcountAt sys i) :
    ∀ (l : List Nat) (sys : CompSys V), i ∈ sys.inflight →
      gcountAt (readAllF (fun s j => readValue fuel s j) sys l).2 i =
        gcountAt sys i := by
  intro l
  induction l with
  | nil => intro sys _; rfl
  | cons j rest ih =>
    intro sys hin
    have hj := ihv sys j hin
    have hpres := readValue_preserves fuel sys j
    unfold readAllF
    rcases hfj : readValue fuel sys j with ⟨r, sys'⟩
    rw [hfj] at hj hpres
    cases r with
    | ok v =>
      dsimp only
      have hin' : i ∈ sys'.inflight := by rw [hpres.2.2]; exact hin
      rw [ih sys' hin', hj]
    | thrown e => exact hj
    | fuelOut => exact hj

theorem readValue_gcount_frozen {V : Type} :
    ∀ (fuel : Nat) (sys : CompSys V) (j i : Nat), i ∈ sys.inflight →
      gcountAt (readValue fuel sys j).2 i = gcountAt sys i := by
  intro fuel
  induction fuel with
  | zero => intro sys j i _; rfl
  | succ fuel ih =>
    intro sys j i hin
    unfold readValue
    by_cases hd : disposedAt sys j
    · simp [hd]
    · simp only [hd, Bool.false_eq_true, if_false]
      by_cases hjn : j ∈ sys.inflight
      · simp [hjn]
      · simp only [hjn, if_false]
        rcases hc : cacheAt sys j with _ | v
        · dsimp only
          have hne : j ≠ i := fun hh => hjn (hh ▸ hin)
          set sys1 : CompSys V :=
            { sys with inflight := j :: sys.inflight,
                       gcount := sys.gcount.set j (gcountAt sys j + 1) } with hsys1
          have hin1 : i ∈ sys1.inflight := List.mem_cons_of_mem j hin
          have hg1 : gcountAt sys1 i = gcountAt sys i := by
            simp only [hsys1, gcountAt]
            exact getD_set_ne _ _ _ _ _ hne
          have hall := readAllF_gcount_frozen fuel i (fun s j' => ih s j' i)
            (compAt sys j).reads sys1 hin1
          rcases hra : readAllF (fun s j' => readValue fuel s j') sys1
              (compAt sys j).reads with ⟨r, sys2⟩
          rw [hra] at hall
          cases r with
          | thrown e => exact hall.trans hg1
          | fuelOut => exact hall.trans hg1
          | allOk =>
            rcases (compAt sys j).result with e | rv
            · exact hall.trans hg1
            · exact hall.trans hg1
        · simp

theorem natListBound (l : List Nat) (n : Nat) (hnd : l.Nodup)
    (hb : ∀ x ∈ l, x < n) : l.length ≤ n := by
  have h1 : l.toFinset.card = l.length := List.toFinset_card_of_nodup hnd
  have h2 : l.toFinset ⊆ Finset.range n := by
    intro x hx
    rw [Finset.mem_range]
    exact hb x (List.mem_toFinset.mp hx)
  have := Finset.card_le_card h2
  rw [h1, Finset.card_range] at this
  exact this

theorem readAllF_no_fuelOut {V : Type} (fuel : Nat)
    (ih : ∀ (sys : CompSys V) (i : Nat), ValidSys sys → sys.inflight.Nodup →
      (∀ j ∈ sys.inflight, j < sys.comps.length) →
      sys.comps.length + 1 - sys.inflight.length ≤ fuel →
      (readValue fuel sys i).1 ≠ .fuelOut) :
    ∀ (l : List Nat) (sys : CompSys V), ValidSys sys → sys.inflight.Nodup →
      (∀ j ∈ sys.inflight, j < sys.comps.length) →
      sys.comps.length + 1 - sys.inflight.length ≤ fuel →
      (readAllF (fun s j => readValue fuel s j) sys l).1 ≠ .fuelOut := by
  intro l
  induction l with
  | nil => intro sys _ _ _ _ hc; cases hc
  | cons j rest ihl =>
    intro sys hv hnd hb hf
    have hpres := readValue_preserves fuel sys j
    have hj := ih sys j hv hnd hb hf
    unfold readAllF
    rcases hfj : readValue fuel sys j with ⟨r, sys'⟩
    rw [hfj] at hpres hj
    cases r with
    | ok v =>
      dsimp only
      refine ihl sys' ?_ ?_ ?_ ?_
      · intro c hc j' hj'
        rw [hpres.1] at hc ⊢
        exact hv c hc j' hj'
      · rw [hpres.2.2]; exact hnd
      · intro x hx
        rw [hpres.2.2] at hx
        rw [hpres.1]
        exact hb x hx
      · rw [hpres.1, hpres.2.2]
        exact hf
    | thrown e => intro hc; cases hc
    | fuelOut => exact absurd rfl hj

theorem readValue_no_fuelOut {V : Type} :
    ∀ (fuel : Nat) (sys : CompSys V) (i : Nat), ValidSys sys →
      sys.inflight.Nodup → (∀ j ∈ sys.inflight, j < sys.comps.length) →
      sys.comps.length + 1 - sys.inflight.length ≤ fuel →
      (readValue fuel sys i).1 ≠ .fuelOut := by
  intro fuel
  induction fuel with
  | zero =>
    intro sys i hv hnd hb hf
    exfalso
    have hlen := natListBound sys.inflight sys.comps.length hnd hb
    omega
  | succ fuel ih =>
    intro sys i hv hnd hb hf
    unfold readValue
    by_cases hd : disposedAt sys i
    · simp [hd]
    · simp only [hd, Bool.false_eq_true, if_false]
      by_cases hin : i ∈ sys.inflight
      · simp [hin]
      · simp only [hin, if_false]
        rcases hc : cacheAt sys i with _ | v
        · dsimp only
          set sys1 : CompSys V :=
            { sys with inflight := i :: sys.inflight,
                       gcount := sys.gcount.set i (gcountAt sys i + 1) } with hsys1
          by_cases hi : i < sys.comps.length
          · have hv1 : ValidSys sys1 := hv
            have hnd1 : sys1.inflight.Nodup := by
              simp only [hsys1]
              exact List.nodup_cons.mpr ⟨hin, hnd⟩
            have hb1 : ∀ j ∈ sys1.inflight, j < sys1.comps.length := by
              intro j hj
              rcases List.mem_cons.mp hj with rfl | hj'
              · exact hi
              · exact hb j hj'
            have hf1 : sys1.comps.length + 1 - sys1.inflight.length ≤ fuel := by
              simp only [hsys1, List.length_cons]
              omega
            have hall := readAllF_no_fuelOut fuel ih (compAt sys i).reads sys1
              hv1 hnd1 hb1 hf1
            rcases hra : readAllF (fun s j => readValue fuel s j) sys1
                (compAt sys i).reads with ⟨r, sys2⟩
            rw [hra] at hall
            cases r with
            | thrown e => intro hcon; cases hcon
            | fuelOut => exact absurd rfl hall
            | allOk =>
              rcases (compAt sys i).result with e | rv
              · intro hcon; cases hcon
              · intro hcon; cases hcon
          · -- the read target does not exist: its default getter reads nothing
            have hreads : (compAt sys i).reads = [] := by
              unfold compAt
              rw [List.getD_eq_default]
              omega
            rw [hreads]
            unfold readAllF
            rcases (compAt sys i).result with e | rv
            · intro hcon; cases hcon
            · intro hcon; cases hcon
        · simp

/-- C5: a computed whose getter transitively reads back its own `.value`
hits the shared in-flight set (`computedStack`) and the read raises the
circular-dependency error instead of recursing unboundedly: re-entrant
reads fail immediately at the guard; the in-flight set is restored on
every exit path (also when the getter raises); with fuel exceeding the
number of refs not yet in flight the evaluation never exhausts fuel (no
stack overflow); and on the concrete two-ref cycle the read raises the
circular-dependency error with the in-flight set left empty. -/
theorem circular_dependency_detected {V : Type} :
    (∀ (fuel : Nat) (sys : CompSys V) (i : Nat),
      disposedAt sys i = false → i ∈ sys.inflight →
      readValue (fuel + 1) sys i =
        (.thrown "Circular dependency detected in computed properties", sys)) ∧
    (∀ (fuel : Nat) (sys : CompSys V) (i : Nat),
      (readValue fuel sys i).2.inflight = sys.inflight) ∧
    (∀ (fuel : Nat) (sys : CompSys V) (i : Nat), ValidSys sys →
      sys.inflight.Nodup → (∀ j ∈ sys.inflight, j < sys.comps.length) →
      sys.comps.length + 1 - sys.inflight.length ≤ fuel →
      (readValue fuel sys i).1 ≠ .fuelOut) ∧
    ((readValue 3 c5CycleSys 0).1 =
       .thrown "Circular dependency detected in computed properties" ∧
     (readValue 3 c5CycleSys 0).2.inflight = [] ∧
     gcountAt (readValue 3 c5CycleSys 0).2 0 = 1 ∧
     gcountAt (readValue 3 c5CycleSys 0).2 1 = 1) := by
  refine ⟨?_, ?_, readValue_no_fuelOut, by decide, by decide, by decide, by decide⟩
  · intro fuel sys i hd hin
    unfold readValue
    simp [hd, hin]
  · intro fuel sys i
    exact (readValue_preserves fuel sys i).2.2

theorem circular_dependency_detected_witness :
    readValue (V := Int) 1
      { comps := [⟨[], .ok (.val 3)⟩], cache := [.undef], disposed := [false],
        gcount := [0], inflight := [0] } 0 =
      (.thrown "Circular dependency detected in computed properties",
       { comps := [⟨[], .ok (.val 3)⟩], cache := [.undef], disposed := [false],
         gcount := [0], inflight := [0] }) :=
  (circular_dependency_detected (V := Int)).1 0
    { comps := [⟨[], .ok (.val 3)⟩], cache := [.undef], disposed := [false],
      gcount := [0], inflight := [0] } 0 rfl (by decide)

theorem notifyComputed_fields {V : Type} (sys : CompSys V) (i : Nat) :
    (notifyComputed sys i).gcount = sys.gcount ∧
    (notifyComputed sys i).disposed = sys.disposed ∧
    (notifyComputed sys i).inflight = sys.inflight ∧
    (notifyComputed sys i).comps = sys.comps := by
  unfold notifyComputed
  split <;> exact ⟨rfl, rfl, rfl, rfl⟩

theorem notifyComputed_iterate_fields {V : Type} (sys : CompSys V) (i : Nat) :
    ∀ N : Nat,
      ((fun s => notifyComputed s i)^[N] sys).gcount = sys.gcount ∧
      ((fun s => notifyComputed s i)^[N] sys).disposed = sys.disposed ∧
      ((fun s => notifyComputed s i)^[N] sys).inflight = sys.inflight ∧
      ((fun s => notifyComputed s i)^[N] sys).comps = sys.comps := by
  intro N
  induction N with
  | zero => exact ⟨rfl, rfl, rfl, rfl⟩
  | succ N ih =>
    rw [Function.iterate_succ_apply']
    obtain ⟨h1, h2, h3, h4⟩ := ih
    obtain ⟨g1, g2, g3, g4⟩ :=
      notifyComputed_fields ((fun s => notifyComputed s i)^[N] sys) i
    exact ⟨g1.trans h1, g2.trans h2, g3.trans h3, g4.trans h4⟩

theorem cacheAt_notifyComputed {V : Type} (sys : CompSys V) (i : Nat)
    (hd : disposedAt sys i = false) :
    cacheAt (notifyComputed sys i) i = .undef := by
  unfold notifyComputed
  rw [hd]
  simp only [Bool.false_eq_true, if_false]
  unfold cacheAt
  by_cases hlt : i < sys.cache.length
  · exact getD_set_self_of_lt _ _ _ _ hlt
  · rw [List.getD_eq_default]
    rw [List.length_set]
    omega

theorem readValue_runs_getter_once {V : Type} (fuel : Nat) (sys : CompSys V)
    (i : Nat) (hd : disposedAt sys i = false) (hin : i ∉ sys.inflight)
    (hc : cacheAt sys i = .undef) (hlen : i < sys.gcount.length) :
    gcountAt (readValue (fuel + 1) sys i).2 i = gcountAt sys i + 1 := by
  unfold readValue
  simp only [hd, Bool.false_eq_true, if_false, hin, hc]
  set sys1 : CompSys V :=
    { sys with inflight := i :: sys.inflight,
               gcount := sys.gcount.set i (gcountAt sys i + 1) } with hsys1
  have hg1 : gcountAt sys1 i = gcountAt sys i + 1 := by
    simp only [hsys1, gcountAt]
    exact getD_set_self_of_lt _ _ _ _ hlen
  have hin1 : i ∈ sys1.inflight := List.mem_cons_self i sys.inflight
  have hall := readAllF_gcount_frozen fuel i
    (fun s j => readValue_gcount_frozen fuel s j i) (compAt sys i).reads sys1 hin1
  rcases hra : readAllF (fun s j => readValue fuel s j) sys1
      (compAt sys i).reads with ⟨r, sys2⟩
  rw [hra] at hall
  cases r with
  | thrown e => exact hall.trans hg1
  | fuelOut => exact hall.trans hg1
  | allOk =>
    rcases (compAt sys i).result with e | rv
    · exact hall.trans hg1
    · exact hall.trans hg1

/-- C3 counterexample: with a getter that returns `undefined`, a second
`.value` read with no intervening invalidation re-invokes the getter (the
`cache === undefined` check cannot distinguish a cached `undefined` from an
empty cache): after two back-to-back reads the getter has run twice, not
once. -/
theorem computed_undefined_sentinel_counterexample :
    (readValue 1 c3UndefSys 0).1 = .ok .undef ∧
    (readValue 1 (readValue 1 c3UndefSys 0).2 0).1 = .ok .undef ∧
    gcountAt (readValue 1 (readValue 1 c3UndefSys 0).2 0).2 0 = 2 := by
  decide

/-- C3 (amended): a notification from a source store only clears the cache
slot (`cache = undefined`) and never runs the getter; after N ≥ 1
notifications with no intervening read the getter runs exactly once on the
next `.value` read; and a read that finds a cached value returns it
without re-invoking the getter, provided the cached value is not the
`undefined` sentinel — a getter returning `undefined` is never cached and
re-runs on every read (see the counterexample). -/
theorem computed_lazy_memoization {V : Type} :
    (∀ (sys : CompSys V) (i : Nat) (N : Nat),
      ((fun s => notifyComputed s i)^[N] sys).gcount = sys.gcount ∧
      (1 ≤ N → disposedAt sys i = false →
        cacheAt ((fun s => notifyComputed s i)^[N] sys) i = .undef)) ∧
    (∀ (fuel N : Nat) (sys : CompSys V) (i : Nat), 1 ≤ N →
      disposedAt sys i = false → i ∉ sys.inflight → i < sys.gcount.length →
      gcountAt (readValue (fuel + 1)
        ((fun s => notifyComputed s i)^[N] sys) i).2 i = gcountAt sys i + 1) ∧
    (∀ (fuel : Nat) (sys : CompSys V) (i : Nat) (v : V),
      disposedAt sys i = false → i ∉ sys.inflight → cacheAt sys i = .val v →
      readValue (fuel + 1) sys i = (.ok (.val v), sys)) := by
  have hcache : ∀ (sys : CompSys V) (i : Nat) (N : Nat), 1 ≤ N →
      disposedAt sys i = false →
      cacheAt ((fun s => notifyComputed s i)^[N] sys) i = .undef := by
    intro sys i N hN hd
    match N, hN with
    | N + 1, _ =>
      rw [Function.iterate_succ_apply']
      refine cacheAt_notifyComputed _ i ?_
      unfold disposedAt
      rw [(notifyComputed_iterate_fields sys i N).2.1]
      exact hd
  refine ⟨?_, ?_, ?_⟩
  · intro sys i N
    exact ⟨(notifyComputed_iterate_fields sys i N).1, hcache sys i N⟩
  · intro fuel N sys i hN hd hin hlen
    set sysN := (fun s => notifyComputed s i)^[N] sys with hsysN
    obtain ⟨h1, h2, h3, h4⟩ := notifyComputed_iterate_fields sys i N
    have hdN : disposedAt sysN i = false := by
      unfold disposedAt
      rw [h2]
      exact hd
    have hinN : i ∉ sysN.inflight := by rw [h3]; exact hin
    have hcN : cacheAt sysN i = .undef := hcache sys i N hN hd
    have hlenN : i < sysN.gcount.length := by rw [h1]; exact hlen
    have := readValue_runs_getter_once fuel sysN i hdN hinN hcN hlenN
    rw [this]
    unfold gcountAt
    rw [h1]
  · intro fuel sys i v hd hin hc
    unfold readValue
    simp [hd, hin, hc]

theorem computed_lazy_memoization_witness :
    readValue (V := Int) 1
      { comps := [⟨[], .ok (.val 9)⟩], cache := [.val 42], disposed := [false],
        gcount := [3], inflight := [] } 0 =
      (.ok (.val 42),
       { comps := [⟨[], .ok (.val 9)⟩], cache := [.val 42], disposed := [false],
         gcount := [3], inflight := [] }) :=
  (computed_lazy_memoization (V := Int)).2.2 0
    { comps := [⟨[], .ok (.val 9)⟩], cache := [.val 42], disposed := [false],
      gcount := [3], inflight := [] } 0 42 rfl (by decide) rfl

theorem keysOf_cons {V : Type} (kv : Key × V) (l : StState V) :
    keysOf (kv :: l) = kv.1 :: keysOf l := rfl

theorem hasKeyK_iff_mem {V : Type} (l : StState V) (k : Key) :
    hasKeyK l k = true ↔ k ∈ keysOf l := by
  induction l with
  | nil => simp [hasKeyK, lookupK, keysOf]
  | cons hd tl ih =>
    obtain ⟨k0, v0⟩ := hd
    rw [keysOf_cons]
    by_cases h : k0 = k
    · subst h
      simp [hasKeyK, lookupK]
    · have hne : ¬ k = k0 := fun hh => h hh.symm
      rw [List.mem_cons]
      constructor
      · intro hh
        have : hasKeyK tl k = true := by
          simpa [hasKeyK, lookupK, h] using hh
        exact Or.inr (ih.mp this)
      · rintro (rfl | hm)
        · exact absurd rfl hne
        · have := ih.mpr hm
          simpa [hasKeyK, lookupK, h] using this

theorem setK_not_has_append {V : Type} (l : StState V) (k : Key) (v : V)
    (h : hasKeyK l k = false) : setK l k v = l ++ [(k, v)] := by
  induction l with
  | nil => simp [setK]
  | cons hd tl ih =>
    obtain ⟨k0, v0⟩ := hd
    have hne : k0 ≠ k := by
      intro hh
      simp [hasKeyK, lookupK, hh] at h
    simp only [setK, hne, if_false, List.cons_append, List.cons.injEq, true_and]
    apply ih
    simpa [hasKeyK, lookupK, hne] using h

theorem setK_append_left {V : Type} (a b : StState V) (x : Key) (v : V)
    (h : hasKeyK a x = true) : setK (a ++ b) x v = setK a x v ++ b := by
  induction a with
  | nil => simp [hasKeyK, lookupK] at h
  | cons hd tl ih =>
    obtain ⟨k0, v0⟩ := hd
    by_cases h0 : k0 = x
    · simp [setK, h0]
    · have htl : hasKeyK tl x = true := by
        simpa [hasKeyK, lookupK, h0] using h
      simp [setK, h0, ih htl]

theorem keysOf_setK {V : Type} (l : StState V) (x : Key) (v : V)
    (h : hasKeyK l x = true) : keysOf (setK l x v) = keysOf l := by
  induction l with
  | nil => simp [hasKeyK, lookupK] at h
  | cons hd tl ih =>
    obtain ⟨k0, v0⟩ := hd
    by_cases h0 : k0 = x
    · simp [setK, h0, keysOf]
    · have htl : hasKeyK tl x = true := by
        simpa [hasKeyK, lookupK, h0] using h
      simp [setK, h0, keysOf] at ih ⊢
      exact ih htl

theorem lookupK_of_mem_nodup {V : Type} (l : StState V) (k : Key) (w : V)
    (hnd : KeysNodup l) (hm : (k, w) ∈ l) : lookupK l k = some w := by
  induction l with
  | nil => cases hm
  | cons hd tl ih =>
    obtain ⟨k0, v0⟩ := hd
    rcases List.mem_cons.mp hm with heq | hm'
    · obtain ⟨rfl, rfl⟩ := Prod.mk.injEq .. ▸ heq
      simp [lookupK]
    · have hk : k0 ≠ k := by
        intro hh
        subst hh
        have : k0 ∈ keysOf tl := List.mem_map.mpr ⟨(k0, w), hm', rfl⟩
        exact (List.nodup_cons.mp hnd).1 this
      simp only [lookupK, hk, if_false]
      exact ih (List.nodup_cons.mp hnd).2 hm'

theorem mem_setK_self {V : Type} (l : StState V) (x : Key) (v : V)
    (h : hasKeyK l x = true) : (x, v) ∈ setK l x v := by
  induction l with
  | nil => simp [hasKeyK, lookupK] at h
  | cons hd tl ih =>
    obtain ⟨k0, v0⟩ := hd
    by_cases h0 : k0 = x
    · subst h0
      simp [setK]
    · have htl : hasKeyK tl x = true := by
        simpa [hasKeyK, lookupK, h0] using h
      simp [setK, h0]
      exact Or.inr (ih htl)

theorem hasKeyK_append {V : Type} (l1 l2 : StState V) (k : Key) :
    hasKeyK (l1 ++ l2) k = (hasKeyK l1 k || hasKeyK l2 k) := by
  induction l1 with
  | nil => simp [hasKeyK, lookupK]
  | cons hd tl ih =>
    obtain ⟨k0, v0⟩ := hd
    by_cases h0 : k0 = k
    · simp [hasKeyK, lookupK, h0]
    · simp [hasKeyK, lookupK, h0] at ih ⊢
      exact ih

theorem applyUpdate_disjoint {V : Type} (u : UpdMap V) :
    ∀ (st : StState V), KeysNodup u →
      (∀ k ∈ keysOf u, hasKeyK st k = false) → applyUpdate st u = st ++ u := by
  induction u with
  | nil => intro st _ _; simp [applyUpdate]
  | cons hd rest ih =>
    intro st hnd hdisj
    obtain ⟨k0, v0⟩ := hd
    have h0 : hasKeyK st k0 = false := hdisj k0
      (by rw [keysOf_cons]; exact List.mem_cons_self _ _)
    have step : applyUpdate st ((k0, v0) :: rest) =
        applyUpdate (setK st k0 v0) rest := rfl
    rw [step, setK_not_has_append st k0 v0 h0]
    have hnd' : KeysNodup rest := by
      simpa [KeysNodup, keysOf] using (List.nodup_cons.mp hnd).2
    have hdisj' : ∀ k ∈ keysOf rest, hasKeyK (st ++ [(k0, v0)]) k = false := by
      intro k hk
      rw [hasKeyK_append]
      have h1 : hasKeyK st k = false := hdisj k
        (by rw [keysOf_cons]; exact List.mem_cons_of_mem _ hk)
      have h2 : hasKeyK [(k0, v0)] k = false := by
        have : k0 ≠ k := by
          intro hh
          subst hh
          exact (List.nodup_cons.mp hnd).1 hk
        simp [hasKeyK, lookupK, this]
      rw [h1, h2]
      rfl
    rw [ih (st ++ [(k0, v0)]) hnd' hdisj', List.append_assoc]
    rfl

theorem applyUpdate_nil_left {V : Type} (a : StState V) (hnd : KeysNodup a) :
    applyUpdate [] a = a := by
  have := applyUpdate_disjoint a [] hnd (by intro k _; rfl)
  simpa using this

theorem lookupK_applyUpdate_not_mem {V : Type} (u : UpdMap V) :
    ∀ (st : StState V) (x : Key), x ∉ keysOf u →
      lookupK (applyUpdate st u) x = lookupK st x := by
  induction u with
  | nil => intro st x _; rfl
  | cons hd rest ih =>
    intro st x hx
    obtain ⟨k0, v0⟩ := hd
    have hne : k0 ≠ x := by
      intro hh
      exact hx (by simp [keysOf, hh])
    have step : applyUpdate st ((k0, v0) :: rest) =
        applyUpdate (setK st k0 v0) rest := rfl
    rw [step, ih (setK st k0 v0) x
        (fun hc => hx (by rw [keysOf_cons]; exact List.mem_cons_of_mem _ hc)),
      lookupK_setK_ne st k0 x v0 hne]

theorem lookupK_applyUpdate_mem {V : Type} (u : UpdMap V) :
    ∀ (st : StState V) (x : Key) (v : V), KeysNodup u → (x, v) ∈ u →
      lookupK (applyUpdate st u) x = some v := by
  induction u with
  | nil => intro st x v _ hm; cases hm
  | cons hd rest ih =>
    intro st x v hnd hm
    obtain ⟨k0, v0⟩ := hd
    have step : applyUpdate st ((k0, v0) :: rest) =
        applyUpdate (setK st k0 v0) rest := rfl
    rcases List.mem_cons.mp hm with heq | hm'
    · obtain ⟨rfl, rfl⟩ := Prod.mk.injEq .. ▸ heq
      have hx : x ∉ keysOf rest := by
        have h' : (x :: keysOf rest).Nodup := by
          have h2 := hnd
          rw [KeysNodup, keysOf_cons] at h2
          exact h2
        exact (List.nodup_cons.mp h').1
      rw [step, lookupK_applyUpdate_not_mem rest (setK st x v) x hx,
        lookupK_setK_self]
    · have hnd' : KeysNodup rest := by
        simpa [KeysNodup, keysOf] using (List.nodup_cons.mp hnd).2
      rw [step]
      exact ih (setK st k0 v0) x v hnd' hm'

theorem deltaOf_append {V : Type} [DecidableEq V] (st : StState V)
    (u1 u2 : UpdMap V) :
    deltaOf st (u1 ++ u2) = deltaOf st u1 ++ deltaOf st u2 := by
  simp [deltaOf, List.filter_append]

theorem deltaOf_agree_nil {V : Type} [DecidableEq V] (st : StState V)
    (l : UpdMap V) (h : ∀ kv ∈ l, lookupK st kv.1 = some kv.2) :
    deltaOf st l = [] := by
  induction l with
  | nil => rfl
  | cons kv rest ih =>
    have hkv := h kv (List.mem_cons_self kv rest)
    simp only [deltaOf, List.filter_cons]
    rw [show (hasKeyK st kv.1 && decide (lookupK st kv.1 ≠ some kv.2)) = false by
      simp [hkv]]
    exact ih (fun kv' hm => h kv' (List.mem_cons_of_mem kv hm))

theorem deltaOf_nokey_nil {V : Type} [DecidableEq V] (st : StState V)
    (l : UpdMap V) (h : ∀ kv ∈ l, hasKeyK st kv.1 = false) :
    deltaOf st l = [] := by
  induction l with
  | nil => rfl
  | cons kv rest ih =>
    have hkv := h kv (List.mem_cons_self kv rest)
    simp only [deltaOf, List.filter_cons]
    rw [show (hasKeyK st kv.1 && decide (lookupK st kv.1 ≠ some kv.2)) = false by
      simp [hkv]]
    exact ih (fun kv' hm => h kv' (List.mem_cons_of_mem kv hm))

theorem deltaOf_setK {V : Type} [DecidableEq V] (st : StState V) :
    ∀ (a : StState V) (x : Key) (v : V),
      (∀ kv ∈ a, lookupK st kv.1 = some kv.2) →
      hasKeyK st x = true → lookupK st x ≠ some v → hasKeyK a x = true →
      deltaOf st (setK a x v) = [(x, v)] := by
  intro a
  induction a with
  | nil => intro x v _ _ _ ha; simp [hasKeyK, lookupK] at ha
  | cons hd rest ih =>
    intro x v hagree hst hnev ha
    obtain ⟨k0, w0⟩ := hd
    by_cases h0 : k0 = x
    · subst h0
      have hsetk : setK ((k0, w0) :: rest) k0 v = (k0, v) :: rest := by
        simp [setK]
      rw [hsetk]
      simp only [deltaOf, List.filter_cons]
      rw [show (hasKeyK st k0 && decide (lookupK st k0 ≠ some v)) = true by
        simp [hst, hnev]]
      have hrest : deltaOf st rest = [] :=
        deltaOf_agree_nil st rest (fun kv hm => hagree kv (List.mem_cons_of_mem _ hm))
      simp only [deltaOf] at hrest
      rw [hrest]
      simp
    · have hk0 : lookupK st k0 = some w0 :=
        hagree (k0, w0) (List.mem_cons_self _ rest)
      have harest : hasKeyK rest x = true := by
        simpa [hasKeyK, lookupK, h0] using ha
      simp only [setK, h0, if_false, deltaOf, List.filter_cons]
      rw [show (hasKeyK st k0 && decide (lookupK st k0 ≠ some w0)) = false by
        simp [hk0]]
      have := ih x v (fun kv hm => hagree kv (List.mem_cons_of_mem _ hm)) hst hnev harest
      simpa [deltaOf] using this

theorem preflightFrom_two {V : Type} [DecidableEq V] (s0 s1 : StoreM V)
    (u : UpdMap V) (h0 : deltaOf s0.data u ≠ [])
    (hval0 : validateUpdate s0.validators (deltaOf s0.data u) = .ok ())
    (h1 : deltaOf s1.data u = []) :
    preflightFrom [s0, s1] 0 u = ([.validateSrc 0], none) := by
  unfold preflightFrom
  rw [if_neg h0, hval0]
  unfold preflightFrom
  rw [if_pos h1]
  rfl

theorem distributeFrom_two {V : Type} [DecidableEq V] (s0 s1 st0' : StoreM V)
    (u : UpdMap V) (h0 : deltaOf s0.data u ≠ [])
    (hupd0 : storeUpdate s0 (fun _ => deltaOf s0.data u) = .ok st0')
    (h1 : deltaOf s1.data u = []) :
    distributeFrom [s0, s1] 0 u = ([st0', s1], [.rawUpd 0, .notifySrc 0], none) := by
  unfold distributeFrom
  rw [if_neg h0, hupd0]
  unfold distributeFrom
  rw [if_pos h1]
  rfl

theorem mixedUpdate_eval_two {V : Type} [DecidableEq V]
    (s0 s1 mixed mixed' st0' : StoreM V) (icpt : Bool)
    (cb : StState V → UpdMap V) (u : UpdMap V)
    (hu : cb mixed.data = u)
    (hmv : validateUpdate mixed.validators u = .ok ())
    (h0 : deltaOf s0.data u ≠ [])
    (hval0 : validateUpdate s0.validators (deltaOf s0.data u) = .ok ())
    (h1 : deltaOf s1.data u = [])
    (hupd0 : storeUpdate s0 (fun _ => deltaOf s0.data u) = .ok st0')
    (hsuper : storeUpdate mixed (fun _ => u) = .ok mixed') :
    mixedUpdate ⟨[s0, s1], mixed, icpt⟩ cb =
      (⟨[st0', s1], mixed', icpt⟩,
       [.validateSrc 0, .notifyMixed, .rawUpd 0, .notifySrc 0], none) := by
  unfold mixedUpdate
  dsimp only
  rw [hu, hmv, preflightFrom_two s0 s1 u h0 hval0 h1, hsuper,
    distributeFrom_two s0 s1 st0' u h0 hupd0 h1]
  rfl

theorem mixTwo_mixed_data {V : Type} (a b : StState V) (la lb : List Nat)
    (hna : KeysNodup a) (hnb : KeysNodup b)
    (hbna : ∀ k ∈ keysOf b, hasKeyK a k = false) :
    (mixTwo a b la lb).mixed.data = a ++ b := by
  show applyUpdate (applyUpdate [] a) b = a ++ b
  rw [applyUpdate_nil_left a hna]
  exact applyUpdate_disjoint b a hnb hbna

/-- C2: for `mixStores([a, b])` over stores with disjoint key spaces and a
key `x` of `a` with a genuinely new value `v`:
`mixed.update(s => ({...s, x: v}))` puts `v` into `a`'s state, leaves every
key of `b` (and `b`'s whole state) unchanged, commits `v` in the mixed
state, and produces exactly the events
`[validateSrc 0, notifyMixed, rawUpd 0, notifySrc 0]` — one notification
for the mixed store and one for `a`, and store `b`, whose delta is empty,
is never validated, notified or re-entered; conversely
`a.update(s => ({...s, x: v}))` through the intercepted entry point
commits `v` into the mixed state and back into `a`, leaves `b` untouched,
and again yields exactly one notification per affected store and no event
for `b`. -/
theorem mixStores_bidirectional_sync {V : Type} [DecidableEq V]
    (a b : StState V) (la lb : List Nat) (x : Key) (v : V)
    (hna : KeysNodup a) (hnb : KeysNodup b)
    (hdisj : ∀ k, k ∈ keysOf a → k ∉ keysOf b)
    (hx : hasKeyK a x = true) (hv : lookupK a x ≠ some v) :
    (mixedUpdate (mixTwo a b la lb) (fun s => setK s x v)).2.2 = none ∧
    lookupK (srcAt (mixedUpdate (mixTwo a b la lb) (fun s => setK s x v)).1 0).data
      x = some v ∧
    (∀ k, k ≠ x →
      lookupK (srcAt (mixedUpdate (mixTwo a b la lb) (fun s => setK s x v)).1 0).data
        k = lookupK a k) ∧
    (srcAt (mixedUpdate (mixTwo a b la lb) (fun s => setK s x v)).1 1).data = b ∧
    lookupK (mixedUpdate (mixTwo a b la lb) (fun s => setK s x v)).1.mixed.data
      x = some v ∧
    (mixedUpdate (mixTwo a b la lb) (fun s => setK s x v)).2.1 =
      [.validateSrc 0, .notifyMixed, .rawUpd 0, .notifySrc 0] ∧
    (sourceUpdate (mixTwo a b la lb) 0 (fun s => setK s x v)).2.2 = none ∧
    lookupK (sourceUpdate (mixTwo a b la lb) 0 (fun s => setK s x v)).1.mixed.data
      x = some v ∧
    lookupK
      (srcAt (sourceUpdate (mixTwo a b la lb) 0 (fun s => setK s x v)).1 0).data
      x = some v ∧
    (srcAt (sourceUpdate (mixTwo a b la lb) 0 (fun s => setK s x v)).1 1).data = b ∧
    (sourceUpdate (mixTwo a b la lb) 0 (fun s => setK s x v)).2.1 =
      [.validateSrc 0, .validateSrc 0, .notifyMixed, .rawUpd 0, .notifySrc 0] := by
  -- shared facts
  have hbna : ∀ k ∈ keysOf b, hasKeyK a k = false := by
    intro k hk
    cases hcase : hasKeyK a k with
    | false => rfl
    | true => exact absurd hk (hdisj k ((hasKeyK_iff_mem a k).mp hcase))
  have hdata : (mixTwo a b la lb).mixed.data = a ++ b :=
    mixTwo_mixed_data a b la lb hna hnb hbna
  have hagree_a : ∀ kv ∈ a, lookupK a kv.1 = some kv.2 := by
    intro kv hm
    obtain ⟨k, w⟩ := kv
    exact lookupK_of_mem_nodup a k w hna hm
  have hagree_b : ∀ kv ∈ b, lookupK b kv.1 = some kv.2 := by
    intro kv hm
    obtain ⟨k, w⟩ := kv
    exact lookupK_of_mem_nodup b k w hnb hm
  have hd_a_setK : deltaOf a (setK a x v) = [(x, v)] :=
    deltaOf_setK a a x v hagree_a hx hv hx
  have hd_a_b : deltaOf a b = [] := by
    refine deltaOf_nokey_nil a b ?_
    intro kv hm
    exact hbna kv.1 (List.mem_map.mpr ⟨kv, hm, rfl⟩)
  have hkeys_setK : keysOf (setK a x v) = keysOf a := keysOf_setK a x v hx
  have hd_b_setK : deltaOf b (setK a x v) = [] := by
    refine deltaOf_nokey_nil b (setK a x v) ?_
    intro kv hm
    have hk : kv.1 ∈ keysOf a := by
      rw [← hkeys_setK]
      exact List.mem_map.mpr ⟨kv, hm, rfl⟩
    cases hcase : hasKeyK b kv.1 with
    | false => rfl
    | true => exact absurd ((hasKeyK_iff_mem b kv.1).mp hcase) (hdisj kv.1 hk)
  have hd_b_b : deltaOf b b = [] := deltaOf_agree_nil b b hagree_b
  have hnodup_setK : KeysNodup (setK a x v) := by
    unfold KeysNodup
    rw [hkeys_setK]
    exact hna
  have hnodup_u : KeysNodup (setK a x v ++ b) := by
    unfold KeysNodup
    rw [keysOf, List.map_append, ← keysOf, ← keysOf, hkeys_setK, List.nodup_append]
    refine ⟨hna, hnb, ?_⟩
    intro k hk hk'
    exact hdisj k hk hk'
  have hmem_setK : (x, v) ∈ setK a x v := mem_setK_self a x v hx
  -- direction (a): update through the mixed store
  have hsplit : setK (a ++ b) x v = setK a x v ++ b := setK_append_left a b x v hx
  have hd_a : deltaOf a (setK (a ++ b) x v) = [(x, v)] := by
    rw [hsplit, deltaOf_append, hd_a_setK, hd_a_b]
    rfl
  have hd_b : deltaOf b (setK (a ++ b) x v) = [] := by
    rw [hsplit, deltaOf_append, hd_b_setK, hd_b_b]
    rfl
  have hevalA := mixedUpdate_eval_two
    (V := V) { data := a, listeners := la } { data := b, listeners := lb }
    ((mixTwo a b la lb).mixed)
    { data := applyUpdate (a ++ b) (setK (a ++ b) x v), listeners := [],
      middleware := [], validators := [] }
    { data := setK a x v, listeners := la, middleware := [], validators := [] }
    true (fun s => setK s x v) (setK (a ++ b) x v)
    (by rw [show (mixTwo a b la lb).mixed.data = a ++ b from hdata])
    rfl
    (by rw [hd_a]; intro hc; cases hc)
    (by rw [hd_a]; rfl)
    hd_b
    (by rw [hd_a]; rfl)
    (by
      have hs : storeUpdate ((mixTwo a b la lb).mixed)
          (fun _ => setK (a ++ b) x v) =
          .ok { data := applyUpdate ((mixTwo a b la lb).mixed.data)
                  (setK (a ++ b) x v),
                listeners := [], middleware := [], validators := [] } := rfl
      rw [hs, hdata])
  have hmsA : mixTwo a b la lb =
      ⟨[{ data := a, listeners := la }, { data := b, listeners := lb }],
       (mixTwo a b la lb).mixed, true⟩ := rfl
  have hraw : mixedUpdate (mixTwo a b la lb) (fun s => setK s x v) =
      (⟨[{ data := setK a x v, listeners := la, middleware := [],
           validators := [] },
         { data := b, listeners := lb }],
        { data := applyUpdate (a ++ b) (setK (a ++ b) x v), listeners := [],
          middleware := [], validators := [] }, true⟩,
       [.validateSrc 0, .notifyMixed, .rawUpd 0, .notifySrc 0], none) := by
    rw [hmsA]
    exact hevalA
  have hlookup_mixed : lookupK (applyUpdate (a ++ b) (setK (a ++ b) x v)) x =
      some v := by
    rw [hsplit]
    exact lookupK_applyUpdate_mem (setK a x v ++ b) (a ++ b) x v hnodup_u
      (List.mem_append.mpr (Or.inl hmem_setK))
  -- direction (b): update through the intercepted source entry point
  have hd_a' : deltaOf a (setK a x v) ≠ [] := by rw [hd_a_setK]; intro hc; cases hc
  have hevalB := mixedUpdate_eval_two
    (V := V) { data := a, listeners := la } { data := b, listeners := lb }
    ((mixTwo a b la lb).mixed)
    { data := applyUpdate (a ++ b) (setK a x v), listeners := [],
      middleware := [], validators := [] }
    { data := setK a x v, listeners := la, middleware := [], validators := [] }
    true (fun _ => setK a x v) (setK a x v)
    rfl
    rfl
    (by rw [hd_a_setK]; intro hc; cases hc)
    (by rw [hd_a_setK]; rfl)
    hd_b_setK
    (by rw [hd_a_setK]; rfl)
    (by
      have hs : storeUpdate ((mixTwo a b la lb).mixed) (fun _ => setK a x v) =
          .ok { data := applyUpdate ((mixTwo a b la lb).mixed.data) (setK a x v),
                listeners := [], middleware := [], validators := [] } := rfl
      rw [hs, hdata])
  have hrawB : sourceUpdate (mixTwo a b la lb) 0 (fun s => setK s x v) =
      (⟨[{ data := setK a x v, listeners := la, middleware := [],
           validators := [] },
         { data := b, listeners := lb }],
        { data := applyUpdate (a ++ b) (setK a x v), listeners := [],
          middleware := [], validators := [] }, true⟩,
       [.validateSrc 0, .validateSrc 0, .notifyMixed, .rawUpd 0, .notifySrc 0],
       none) := by
    unfold sourceUpdate
    rw [if_pos (show (mixTwo a b la lb).intercepted = true from rfl)]
    have hsrc : srcAt (mixTwo a b la lb) 0 = { data := a, listeners := la } := rfl
    rw [hsrc]
    dsimp only
    rw [show validateUpdate ({ data := a, listeners := la } : StoreM V).validators
      (setK a x v) = .ok () from rfl]
    rw [hmsA, hevalB]
  have hlookup_mixedB : lookupK (applyUpdate (a ++ b) (setK a x v)) x = some v :=
    lookupK_applyUpdate_mem (setK a x v) (a ++ b) x v hnodup_setK hmem_setK
  rw [hraw, hrawB]
  refine ⟨rfl, ?_, ?_, rfl, hlookup_mixed, rfl, rfl, hlookup_mixedB, ?_, rfl, rfl⟩
  · exact lookupK_setK_self a x v
  · intro k hk
    exact lookupK_setK_ne a x k v (fun hh => hk hh.symm)
  · exact lookupK_setK_self a x v

theorem mixStores_bidirectional_sync_witness :
    lookupK (srcAt (mixedUpdate (mixTwo [("x", (1 : Int))] [("y", 2)] [0] [1])
      (fun s => setK s "x" 5)).1 0).data "x" = some 5 ∧
    (srcAt (mixedUpdate (mixTwo [("x", (1 : Int))] [("y", 2)] [0] [1])
      (fun s => setK s "x" 5)).1 1).data = [("y", 2)] ∧
    lookupK (sourceUpdate (mixTwo [("x", (1 : Int))] [("y", 2)] [0] [1]) 0
      (fun s => setK s "x" 5)).1.mixed.data "x" = some 5 := by
  have h := mixStores_bidirectional_sync [("x", (1 : Int))] [("y", 2)] [0] [1]
    "x" 5 (by unfold KeysNodup; decide) (by unfold KeysNodup; decide)
    (by decide) (by decide) (by decide)
  exact ⟨h.2.1, h.2.2.2.1, h.2.2.2.2.2.2.2.1⟩

/-- C9 counterexample: after `cleanup()`, `mixed.update` still pushes the
per-store delta into source store `a` through the raw write-back path —
`cleanup` only restores the sources' `update` methods and does not undo the
`MixedStore.update` override, so the mixed store keeps propagating its own
updates to the source stores. -/
theorem cleanup_mixed_still_propagates_counterexample :
    (srcAt (mixedUpdate (cleanupMix (mixTwo [("x", (1 : Int))] [("y", 2)] [] []))
      (fun s => setK s "x" 5)).1 0).data = [("x", 5)] ∧
    (mixedUpdate (cleanupMix (mixTwo [("x", (1 : Int))] [("y", 2)] [] []))
      (fun s => setK s "x" 5)).2.1 =
      [.validateSrc 0, .notifyMixed, .rawUpd 0, .notifySrc 0] := by
  decide

/-- C9 (amended): `cleanup()` restores every source store's original
`update`: afterwards a source `update` runs the plain `Store.update`
pipeline on that store alone — the mixed store's state is untouched and no
mixed-store event occurs (on failure too) — and the mixed store remains a
valid independent store; however, `cleanup` does not undo the
`MixedStore.update` override, so updates issued *on the mixed store* still
propagate their deltas into the source stores (see the counterexample). -/
theorem cleanup_restores_source_update {V : Type} [DecidableEq V] :
    (∀ (ms : MixState V) (i : Nat) (cb : StState V → UpdMap V) (st' : StoreM V),
      storeUpdate (srcAt ms i) cb = .ok st' →
      sourceUpdate (cleanupMix ms) i cb =
        ({ sources := ms.sources.set i st', mixed := ms.mixed,
           intercepted := false }, [.notifySrc i], none)) ∧
    (∀ (ms : MixState V) (i : Nat) (cb : StState V → UpdMap V) (e : String),
      storeUpdate (srcAt ms i) cb = .error e →
      sourceUpdate (cleanupMix ms) i cb = (cleanupMix ms, [], some e)) ∧
    (lookupK (mixedUpdate (cleanupMix (mixTwo [("x", (1 : Int))] [("y", 2)] [] []))
        (fun s => setK s "x" 5)).1.mixed.data "x" = some 5 ∧
     (srcAt (mixedUpdate (cleanupMix (mixTwo [("x", (1 : Int))] [("y", 2)] [] []))
        (fun s => setK s "x" 5)).1 0).data = [("x", 5)]) := by
  refine ⟨?_, ?_, by decide, by decide⟩
  · intro ms i cb st' h
    unfold sourceUpdate
    rw [if_neg (show ¬ (cleanupMix ms).intercepted = true by
      simp [cleanupMix])]
    rw [show srcAt (cleanupMix ms) i = srcAt ms i from rfl, h]
    rfl
  · intro ms i cb e h
    unfold sourceUpdate
    rw [if_neg (show ¬ (cleanupMix ms).intercepted = true by
      simp [cleanupMix])]
    rw [show srcAt (cleanupMix ms) i = srcAt ms i from rfl, h]

theorem cleanup_restores_source_update_witness :
    sourceUpdate (cleanupMix (mixTwo [("z", (3 : Int))] [("w", 4)] [] [])) 0
      (fun _ => [("z", 9)]) =
      ({ sources := [{ data := [("z", 9)], listeners := [], middleware := [],
                       validators := [] },
                     { data := [("w", 4)], listeners := [], middleware := [],
                       validators := [] }],
         mixed := (mixTwo [("z", (3 : Int))] [("w", 4)] [] []).mixed,
         intercepted := false }, [.notifySrc 0], none) := by
  have h := (cleanup_restores_source_update (V := Int)).1
    (mixTwo [("z", (3 : Int))] [("w", 4)] [] []) 0 (fun _ => [("z", 9)])
    { data := [("z", 9)], listeners := [], middleware := [], validators := [] }
    rfl
  rw [h]
  rfl

/-- C6 (evaluating the `state` accessor's write behaviour): a top-level
write through the proxy is rejected (the `set` trap warns and returns
`false`) and leaves the state unchanged — but at the failing input
`{a: {b: 1}}` the nested write `state.a.b = 2` is accepted and mutates the
store's internal state to `{a: {b: 2}}`, because the `get` trap wraps
nested objects in an *empty-handler* proxy that blocks nothing.  This
contradicts the claim that writes at any nesting depth are rejected with
no effect. -/
theorem state_proxy_nested_write_mutates :
    (∀ (data : JVal) (k : String) (v : JVal),
      viewWrite data [k] v = (data, false)) ∧
    viewWrite (.obj 0 (.fcons "a" (.obj 1 (.fcons "b" (.prim 1) .fnil)) .fnil))
        ["a", "b"] (.prim 2) =
      (.obj 0 (.fcons "a" (.obj 1 (.fcons "b" (.prim 2) .fnil)) .fnil), true) :=
  ⟨fun _ _ _ => rfl, rfl⟩

/-- C10 counterexample: with a function-valued property, `cloneState`
(which is `structuredClone(this._data)` in the store source) fails with a
`DataCloneError` for the whole clone instead of falling back to a shallow
reference copy of that property with a warning. -/
theorem cloneState_aborts_on_uncloneable_counterexample :
    cloneState (.obj 0 (.fcons "f" (.fn 1) .fnil)) 100 =
      .error "DataCloneError" := rfl

mutual

theorem sCloneV_deep_copy : ∀ (v : JVal) (c : Nat), hasFnV v = false →
    ∃ v' c', sCloneV v c = .ok (v', c') ∧ stripV v' = stripV v ∧
      c ≤ c' ∧ (∀ i ∈ idListV v', c ≤ i)
  | .prim n, c, _ => ⟨.prim n, c, rfl, rfl, Nat.le_refl c, by simp [idListV]⟩
  | .fn _, _, h => absurd h (by simp [hasFnV])
  | .obj id fs, c, h => by
    have hf : hasFnF fs = false := by simpa [hasFnV] using h
    obtain ⟨fs', c', h1, h2, h3, h4⟩ := sCloneF_deep_copy fs (c + 1) hf
    refine ⟨.obj c fs', c', ?_, ?_, ?_, ?_⟩
    · show (sCloneF fs (c + 1)).map _ = _
      rw [h1]
      rfl
    · show JVal.obj 0 (stripF fs') = JVal.obj 0 (stripF fs)
      rw [h2]
    · omega
    · intro i hi
      rcases List.mem_cons.mp hi with rfl | hi'
      · exact Nat.le_refl i
      · exact Nat.le_trans (Nat.le_succ c) (h4 i hi')

theorem sCloneF_deep_copy : ∀ (fs : JFields) (c : Nat), hasFnF fs = false →
    ∃ fs' c', sCloneF fs c = .ok (fs', c') ∧ stripF fs' = stripF fs ∧
      c ≤ c' ∧ (∀ i ∈ idListF fs', c ≤ i)
  | .fnil, c, _ => ⟨.fnil, c, rfl, rfl, Nat.le_refl c, by simp [idListF]⟩
  | .fcons k v fs, c, h => by
    have hv : hasFnV v = false ∧ hasFnF fs = false := by
      simpa [hasFnF, Bool.or_eq_false_iff] using h
    obtain ⟨v', cv, h1, h2, h3, h4⟩ := sCloneV_deep_copy v c hv.1
    obtain ⟨fs', c', g1, g2, g3, g4⟩ := sCloneF_deep_copy fs cv hv.2
    refine ⟨.fcons k v' fs', c', ?_, ?_, ?_, ?_⟩
    · show (sCloneV v c).bind _ = _
      rw [h1]
      show (sCloneF fs cv).map _ = _
      rw [g1]
      rfl
    · show JFields.fcons k (stripV v') (stripF fs') =
        JFields.fcons k (stripV v) (stripF fs)
      rw [h2, g2]
    · omega
    · intro i hi
      rcases List.mem_append.mp hi with hi' | hi'
      · exact h4 i hi'
      · exact Nat.le_trans h3 (g4 i hi')

end

mutual

theorem sCloneV_err : ∀ (v : JVal) (c : Nat), hasFnV v = true →
    ∃ e, sCloneV v c = .error e
  | .prim _, _, h => absurd h (by simp [hasFnV])
  | .fn _, c, _ => ⟨"DataCloneError", rfl⟩
  | .obj id fs, c, h => by
    have hf : hasFnF fs = true := by simpa [hasFnV] using h
    obtain ⟨e, he⟩ := sCloneF_err fs (c + 1) hf
    refine ⟨e, ?_⟩
    show (sCloneF fs (c + 1)).map _ = _
    rw [he]
    rfl

theorem sCloneF_err : ∀ (fs : JFields) (c : Nat), hasFnF fs = true →
    ∃ e, sCloneF fs c = .error e
  | .fnil, _, h => absurd h (by simp [hasFnF])
  | .fcons k v fs, c, h => by
    cases hcase : hasFnV v with
    | true =>
      obtain ⟨e, he⟩ := sCloneV_err v c hcase
      refine ⟨e, ?_⟩
      show (sCloneV v c).bind _ = _
      rw [he]
      rfl
    | false =>
      have hrest : hasFnF fs = true := by
        simpa [hasFnF, hcase] using h
      obtain ⟨v', cv, h1, _, _, _⟩ := sCloneV_deep_copy v c hcase
      obtain ⟨e, he⟩ := sCloneF_err fs cv hrest
      refine ⟨e, ?_⟩
      show (sCloneV v c).bind _ = _
      rw [h1]
      show (sCloneF fs cv).map _ = _
      rw [he]
      rfl

end

/-- C10 (amended): `cloneState` returns a deep copy of the current state —
structurally equal (ignoring object identities) and structurally
independent (every object identity of the copy is fresh, so disjoint from
the state's own identities) — for any state `structuredClone` can clone;
when any property holds a non-cloneable value (a function), the whole
clone fails with an error instead of falling back per property.  (The
bundled `dist` variant of the store instead deep-copies by hand with a
per-property reference-copy fallback; the TypeScript store source does
not.) -/
theorem cloneState_deep_copy :
    (∀ (st : JVal) (c : Nat), hasFnV st = false →
      ∃ st' c', cloneState st c = .ok (st', c') ∧ stripV st' = stripV st ∧
        ((∀ i ∈ idListV st, i < c) → ∀ i ∈ idListV st', i ∉ idListV st)) ∧
    (∀ (st : JVal) (c : Nat), hasFnV st = true →
      ∃ e, cloneState st c = .error e) := by
  constructor
  · intro st c h
    obtain ⟨st', c', h1, h2, _, h4⟩ := sCloneV_deep_copy st c h
    refine ⟨st', c', h1, h2, ?_⟩
    intro hb i hi hmem
    exact absurd (hb i hmem) (Nat.not_lt.mpr (h4 i hi))
  · exact sCloneV_err

theorem cloneState_deep_copy_witness :
    cloneState (.obj 7 (.fcons "s" (.prim 4) .fnil)) 100 =
      .ok (.obj 100 (.fcons "s" (.prim 4) .fnil), 101) ∧
    stripV (.obj 100 (.fcons "s" (.prim 4) .fnil)) =
      stripV (.obj 7 (.fcons "s" (.prim 4) .fnil)) := by
  obtain ⟨st', c', h1, h2, _⟩ :=
    cloneState_deep_copy.1 (.obj 7 (.fcons "s" (.prim 4) .fnil)) 100 rfl
  have hval : cloneState (JVal.obj 7 (.fcons "s" (.prim 4) .fnil)) 100 =
      .ok (.obj 100 (.fcons "s" (.prim 4) .fnil), 101) := rfl
  rw [hval] at h1
  injection h1 with hpair
  have h5 : (JVal.obj 100 (.fcons "s" (.prim 4) .fnil)) = st' :=
    congrArg Prod.fst hpair
  rw [← h5] at h2
  exact ⟨hval, h2⟩
